import Mathlib

/-!
Verification of the Sumcheck repository: a sparse multivariate polynomial
engine over a prime field (src/src/lib.rs) and the prover/verifier round
protocol driving it (src/src/main.rs).

The embedding follows the Rust source closely:
  * `HashMap<Vec<usize>, i32>` becomes an association list
    `List (List Nat × Int)` with pairwise distinct keys (HashMaps never hold
    a key twice); lookup-based equality `termsEqB` mirrors `HashMap::eq`
    (same size, every key-value pair of one found in the other).
  * `i32` arithmetic is embedded in two parallel ways.  The main
    development idealizes coefficients at unbounded `Int` width, with
    `Int.emod` playing the role of `rem_euclid` (both yield the canonical
    residue for a positive modulus); this is exact whenever intermediate
    products stay below `i32::MAX`, i.e. for moduli up to 46341.  Where
    the width itself matters — overflow of the `i32` products inside
    `modular_pow` and `partial_eval` — a second, bit-exact release-build
    model (`modular_pow32`, `partial_eval32`, …, `run_protocol32`, all
    wrapping at 2^32) pins down what the program really computes; the
    width-divergence results are stated against it.
  * a Rust `panic!` (including arithmetic underflow of `usize`
    subtraction in debug builds) is modelled as `Option.none`, and inside
    the protocol as the outcome `POutcome.panic`; an `Err(..)` return of
    `run_protocol` is a `POutcome.reject` carrying the failure kind and
    the round, following the spec's `Reject(reason, round)` abstraction
    of the formatted message strings.
  * `while` loops are written with an explicit structural fuel argument
    that is always sufficient at the call sites the source uses
    (`boolSumIter` is called with fuel `num_vars`, and each `bool_sum`
    step removes exactly one variable; `mpLoop` halves `exp` each step).
  * the thread-local random generator becomes an explicit challenge
    stream `rand : Nat → Int` indexed by the number of samples drawn so
    far, and the two override `HashMap`s become functions
    `Nat → Option _`, exactly the seams §6 of the spec describes.
-/

/-! ## Field arithmetic (src/src/lib.rs, `modular_pow` and `is_prime`) -/

/-- Loop body of `modular_pow`, with structural fuel.  The source's loop
`while exp > 0 { if exp % 2 == 1 { result = (result * base) % m }; base =
(base * base) % m; exp /= 2 }` runs at most `exp` iterations, so any fuel
at least `exp` makes the fuel-exhaustion branch unreachable. -/
def mpLoop : Nat → Int → Int → Nat → Int → Int
  | 0, result, _, _, _ => result
  | fuel + 1, result, base, exp, modulus =>
    if exp = 0 then result
    else
      mpLoop fuel (if exp % 2 = 1 then (result * base) % modulus else result)
        ((base * base) % modulus) (exp / 2) modulus

/-- `modular_pow(base, exp, modulus)` from src/src/lib.rs lines 7-20:
binary exponentiation with every product reduced by `rem_euclid`. -/
def modular_pow (base : Int) (exp : Nat) (modulus : Int) : Int :=
  mpLoop exp 1 (base % modulus) exp modulus

/-- Wrap an unbounded integer into the `i32` range `[-2^31, 2^31)`,
the effect of `i32` overflow in a release build. -/
def wrap32 (x : Int) : Int := (x + 2 ^ 31) % 2 ^ 32 - 2 ^ 31

/-- `i32` multiplication as compiled in release mode: the mathematical
product wrapped at 32 bits. -/
def mul32 (a b : Int) : Int := wrap32 (a * b)

/-- Bit-exact model of `modular_pow`'s loop over `i32`: identical to
`mpLoop` except that each product wraps at 32 bits before `rem_euclid`. -/
def mp32Loop : Nat → Int → Int → Nat → Int → Int
  | 0, result, _, _, _ => result
  | fuel + 1, result, base, exp, modulus =>
    if exp = 0 then result
    else
      mp32Loop fuel (if exp % 2 = 1 then mul32 result base % modulus else result)
        (mul32 base base % modulus) (exp / 2) modulus

/-- `modular_pow` computed at the `i32` width the source actually uses. -/
def modular_pow32 (base : Int) (exp : Nat) (modulus : Int) : Int :=
  mp32Loop exp 1 (base % modulus) exp modulus

/-- Trial-division loop of `is_prime`, with structural fuel: checks the
divisors `i, i+2` for `i = 5, 11, 17, …` while `i * i ≤ num`.  The source
loop runs far fewer than `num` iterations, so fuel `num.toNat` suffices. -/
def ipLoop : Nat → Int → Int → Bool
  | 0, _, _ => true
  | fuel + 1, i, num =>
    if i * i ≤ num then
      if num % i = 0 ∨ num % (i + 2) = 0 then false else ipLoop fuel (i + 6) num
    else true

/-- `is_prime(num)` from src/src/lib.rs lines 23-41. -/
def is_prime (num : Int) : Bool :=
  if num ≤ 1 then false
  else if num ≤ 3 then true
  else if num % 2 = 0 ∨ num % 3 = 0 then false
  else ipLoop num.toNat 5 num

/-! ## The polynomial value type (src/src/lib.rs, `MultiVarPolynomial`) -/

/-- `MultiVarPolynomial { terms, num_vars, modulus }`: the term
`HashMap<Vec<usize>, i32>` is an association list whose keys are pairwise
distinct (the well-formedness predicate `WF` below records this together
with the spec §3 invariants). -/
structure MultiVarPolynomial where
  terms : List (List Nat × Int)
  num_vars : Nat
  modulus : Int
deriving DecidableEq, Repr

/-- `HashMap::get` on the term map: the value stored under key `k`. -/
def lookupKey : List (List Nat × Int) → List Nat → Option Int
  | [], _ => none
  | kv :: rest, k => if kv.1 = k then some kv.2 else lookupKey rest k

/-- The `entry(k).and_modify(|c| *c = (*c + v) % md).or_insert(v)` idiom
used by `add_term` and by `partial_eval`'s accumulation. -/
def upsertAddMod : List (List Nat × Int) → List Nat → Int → Int → List (List Nat × Int)
  | [], k, v, _ => [(k, v)]
  | kv :: rest, k, v, md =>
    if kv.1 = k then (kv.1, (kv.2 + v) % md) :: rest
    else kv :: upsertAddMod rest k v md

/-- `HashMap::eq` on term maps: same number of entries, and every entry of
the first is found (with the same value) in the second. -/
def termsEqB (a b : List (List Nat × Int)) : Bool :=
  a.length == b.length && a.all fun kv => lookupKey b kv.1 == some kv.2

/-- The derived `PartialEq` of `MultiVarPolynomial`: all three fields,
with the term maps compared as maps. -/
def polyEqB (p q : MultiVarPolynomial) : Bool :=
  termsEqB p.terms q.terms && p.num_vars == q.num_vars && p.modulus == q.modulus

/-- `MultiVarPolynomial::new`: panics (`none`) unless the modulus is a
positive prime. -/
def MultiVarPolynomial.new (num_vars : Nat) (modulus : Int) : Option MultiVarPolynomial :=
  if modulus ≤ 0 ∨ is_prime modulus = false then none
  else some ⟨[], num_vars, modulus⟩

/-- `add_term(exponents, coefficient)` from src/src/lib.rs lines 65-74:
panics (`none`) on an arity mismatch, otherwise reduces the coefficient
and merges it into the map. -/
def MultiVarPolynomial.add_term (p : MultiVarPolynomial) (exponents : List Nat)
    (coefficient : Int) : Option MultiVarPolynomial :=
  if exponents.length ≠ p.num_vars then none
  else some ⟨upsertAddMod p.terms exponents (coefficient % p.modulus) p.modulus,
    p.num_vars, p.modulus⟩

/-- Maximum of a list of naturals, `0` when empty (`max().unwrap_or(0)`). -/
def maxOr0 (l : List Nat) : Nat := l.foldr Nat.max 0

/-- `degree_in_var(var_index)` from src/src/lib.rs lines 77-87: panics
(`none`) when the index is out of bounds, otherwise the largest exponent
stored at that position.  The source indexes `exponents[var_index]`,
which is in bounds whenever every key has length `num_vars` (the `WF`
invariant); `getD` makes the same access total. -/
def MultiVarPolynomial.degree_in_var (p : MultiVarPolynomial) (var_index : Nat) : Option Nat :=
  if p.num_vars ≤ var_index then none
  else some (maxOr0 (p.terms.map fun kv => kv.1.getD var_index 0))

/-- `HashMap::insert` semantics for building the `eval_map`: a later pair
with the same key overwrites the earlier one. -/
def upsertReplace : List (Nat × Int) → Nat → Int → List (Nat × Int)
  | [], k, v => [(k, v)]
  | kv :: rest, k, v => if kv.1 = k then (k, v) :: rest else kv :: upsertReplace rest k v

/-- `values.into_iter().collect::<HashMap<_,_>>()` in `partial_eval`. -/
def toEvalMap (values : List (Nat × Int)) : List (Nat × Int) :=
  values.foldl (fun m kv => upsertReplace m kv.1 kv.2) []

/-- Lookup in the eval map (`eval_map.get(&var_index)`). -/
def lookupNat : List (Nat × Int) → Nat → Option Int
  | [], _ => none
  | kv :: rest, k => if kv.1 = k then some kv.2 else lookupNat rest k

/-- The per-term body of `partial_eval`'s loop over
`exponents.iter().enumerate()`, starting at position `idx` with the
coefficient accumulated so far: assigned positions multiply the
coefficient by `modular_pow value exp modulus` (reducing each step),
free positions are pushed onto the reduced exponent tuple in order.
This is the idealized unbounded-width reading of src/src/lib.rs lines
103-104 (exact below the `i32` overflow threshold); the bit-exact `i32`
counterpart is `peTerm32` below. -/
def peTerm (em : List (Nat × Int)) (md : Int) : List Nat → Nat → Int → Int × List Nat
  | [], _, c => (c, [])
  | exp :: rest, idx, c =>
    match lookupNat em idx with
    | some v => peTerm em md rest (idx + 1) ((c * modular_pow v exp md) % md)
    | none =>
      let r := peTerm em md rest (idx + 1) c
      (r.1, exp :: r.2)

/-- `partial_eval(values)` from src/src/lib.rs lines 90-125.  The source
performs no validation of `values`: duplicates collapse in the collected
map (last pair wins) and out-of-range indices are never matched by any
position yet still count in `eval_map.len()`.  The only possible panic is
the `usize` underflow of `self.num_vars - eval_map.len()`. -/
def MultiVarPolynomial.partial_eval (p : MultiVarPolynomial) (values : List (Nat × Int)) :
    Option MultiVarPolynomial :=
  let em := toEvalMap values
  let new_terms := p.terms.foldl
    (fun acc kv =>
      let rc := peTerm em p.modulus kv.1 0 kv.2
      upsertAddMod acc rc.2 rc.1 p.modulus) []
  if p.num_vars < em.length then none
  else some ⟨new_terms, p.num_vars - em.length, p.modulus⟩

/-- `impl Add for MultiVarPolynomial` from src/src/lib.rs lines 185-205:
panics (`none`) on mismatched `num_vars` or `modulus`, otherwise feeds
every term of `other` through `add_term` on a copy of `self`. -/
def MultiVarPolynomial.add (p other : MultiVarPolynomial) : Option MultiVarPolynomial :=
  if p.num_vars ≠ other.num_vars then none
  else if p.modulus ≠ other.modulus then none
  else other.terms.foldl (fun acc kv => acc.bind fun q => q.add_term kv.1 kv.2) (some p)

/-- `bool_sum()` from src/src/lib.rs lines 179-181.  On a zero-variable
polynomial the source's `self.num_vars - 1` underflows `usize` and
panics, hence `none`. -/
def MultiVarPolynomial.bool_sum (p : MultiVarPolynomial) : Option MultiVarPolynomial :=
  if p.num_vars = 0 then none
  else
    match p.partial_eval [(p.num_vars - 1, 0)], p.partial_eval [(p.num_vars - 1, 1)] with
    | some a, some b => a.add b
    | _, _ => none

/-- The `while reduced_poly.num_vars > num_remaining_vars` loop of
`compute_g_j`, with structural fuel.  Each successful `bool_sum` removes
exactly one variable, so fuel `p.num_vars` (the call below) always
reaches the exit condition. -/
def boolSumIter : Nat → MultiVarPolynomial → Nat → Option MultiVarPolynomial
  | 0, p, target => if target < p.num_vars then none else some p
  | fuel + 1, p, target =>
    if target < p.num_vars then
      match p.bool_sum with
      | some q => boolSumIter fuel q target
      | none => none
    else some p

/-- `compute_g_j(poly, num_remaining_vars, values)` from src/src/main.rs
lines 187-201: partial evaluation at the fixed challenges (skipped when
`values` is empty), then Boolean-sum reduction down to the requested
number of free variables. -/
def compute_g_j (poly : MultiVarPolynomial) (num_remaining_vars : Nat)
    (values : List (Nat × Int)) : Option MultiVarPolynomial :=
  match (if values = [] then some poly else poly.partial_eval values) with
  | none => none
  | some reduced => boolSumIter reduced.num_vars reduced num_remaining_vars

/-- A polynomial assembled from parsed `(num_vars, modulus, terms)` input
the way `read_from_input` does it: `new` followed by one `add_term` per
term (the parser's own arity check repeats the one inside `add_term`). -/
def buildPoly (num_vars : Nat) (modulus : Int) (tms : List (List Nat × Int)) :
    Option MultiVarPolynomial :=
  (MultiVarPolynomial.new num_vars modulus).bind fun p =>
    tms.foldl (fun acc kv => acc.bind fun q => q.add_term kv.1 kv.2) (some p)

/-! ## The protocol engine (src/src/main.rs, `run_protocol`) -/

/-- The four protocol failures of §7 of the spec, each an `Err(..)` branch
of `run_protocol`. -/
inductive RejectReason where
  | NotUnivariate
  | DegreeExceeded
  | ConsistencyFailure
  | FinalCheckFailure
deriving DecidableEq, Repr

/-- How a protocol run can fail to accept: a panic of the underlying
polynomial code, or a typed rejection carrying the failing round (the
final check is attributed to round `num_vars`, as in §4.3 of the spec). -/
inductive POutcome where
  | panic
  | reject (reason : RejectReason) (round : Nat)
deriving DecidableEq, Repr

/-- State threaded through the round loop: the previous round's message
`g_prev`, the accumulated assignment list `values`, and the number of
challenges sampled so far (the read position in the challenge stream). -/
structure RunSt where
  g_prev : MultiVarPolynomial
  values : List (Nat × Int)
  k : Nat
deriving DecidableEq, Repr

/-- One iteration of the `for num_var in 1..=polynomial.num_vars` loop of
`run_protocol` (src/src/main.rs lines 124-165): select or override the
challenge (skipped in round 1), push it onto `values`, compute or
override `g_j`, then run the univariateness, degree and consistency
checks in the source's order. -/
def protoRound (poly : MultiVarPolynomial) (pov : Nat → Option MultiVarPolynomial)
    (vov : Nat → Option Int) (rand : Nat → Int) (num_var : Nat) (st : RunSt) :
    Except POutcome RunSt :=
  let pushed : RunSt × Int :=
    if 1 < num_var then
      match vov (num_var - 1) with
      | some r => (⟨st.g_prev, st.values ++ [(num_var - 2, r)], st.k⟩, r)
      | none => (⟨st.g_prev, st.values ++ [(num_var - 2, rand st.k)], st.k + 1⟩, rand st.k)
    else (st, 0)
  match (match pov num_var with
         | some og => some og
         | none => compute_g_j poly 1 pushed.1.values) with
  | none => Except.error POutcome.panic
  | some g =>
    if g.num_vars ≠ 1 then Except.error (POutcome.reject RejectReason.NotUnivariate num_var)
    else
      match g.degree_in_var 0, poly.degree_in_var (num_var - 1) with
      | some dg, some dp =>
        if dp < dg then Except.error (POutcome.reject RejectReason.DegreeExceeded num_var)
        else
          match pushed.1.g_prev.partial_eval
              (if 1 < num_var then [(0, pushed.2)] else []), g.bool_sum with
          | some lhs, some rhs =>
            if polyEqB lhs rhs then Except.ok ⟨g, pushed.1.values, pushed.1.k⟩
            else Except.error (POutcome.reject RejectReason.ConsistencyFailure num_var)
          | _, _ => Except.error POutcome.panic
      | _, _ => Except.error POutcome.panic

/-- The part of a round after the challenge push: the same code as
`protoRound` from the `g_j` selection on, abstracted over the pushed
state and challenge (`protoRound` is definitionally the push followed by
this). -/
def protoRoundTail (poly : MultiVarPolynomial) (pov : Nat → Option MultiVarPolynomial)
    (num_var : Nat) (st : RunSt) (r : Int) : Except POutcome RunSt :=
  match (match pov num_var with
         | some og => some og
         | none => compute_g_j poly 1 st.values) with
  | none => Except.error POutcome.panic
  | some g =>
    if g.num_vars ≠ 1 then Except.error (POutcome.reject RejectReason.NotUnivariate num_var)
    else
      match g.degree_in_var 0, poly.degree_in_var (num_var - 1) with
      | some dg, some dp =>
        if dp < dg then Except.error (POutcome.reject RejectReason.DegreeExceeded num_var)
        else
          match st.g_prev.partial_eval
              (if 1 < num_var then [(0, r)] else []), g.bool_sum with
          | some lhs, some rhs =>
            if polyEqB lhs rhs then Except.ok ⟨g, st.values, st.k⟩
            else Except.error (POutcome.reject RejectReason.ConsistencyFailure num_var)
          | _, _ => Except.error POutcome.panic
      | _, _ => Except.error POutcome.panic

/-- The round loop itself: rounds `num_var, num_var+1, …` while `left`
rounds remain. -/
def protoLoop (poly : MultiVarPolynomial) (pov : Nat → Option MultiVarPolynomial)
    (vov : Nat → Option Int) (rand : Nat → Int) : Nat → Nat → RunSt → Except POutcome RunSt
  | _, 0, st => Except.ok st
  | num_var, left + 1, st =>
    match protoRound poly pov vov rand num_var st with
    | Except.ok st' => protoLoop poly pov vov rand (num_var + 1) left st'
    | Except.error e => Except.error e

/-- `run_protocol(polynomial, prover_overrides, verifier_overrides)` from
src/src/main.rs lines 107-184, with the challenge source made explicit:
compute `C`, run the `num_vars` rounds, then draw the last challenge and
run the final evaluation check.  On a zero-variable polynomial the final
`values.push((num_vars - 1, r))` underflows in the source, hence the
panic branch. -/
def run_protocol (poly : MultiVarPolynomial) (pov : Nat → Option MultiVarPolynomial)
    (vov : Nat → Option Int) (rand : Nat → Int) : Except POutcome Unit :=
  match compute_g_j poly 0 [] with
  | none => Except.error POutcome.panic
  | some c =>
    match protoLoop poly pov vov rand 1 poly.num_vars ⟨c, [], 0⟩ with
    | Except.error e => Except.error e
    | Except.ok st =>
      if poly.num_vars = 0 then Except.error POutcome.panic
      else
        let r : Int := match vov poly.num_vars with
          | some r => r
          | none => rand st.k
        match poly.partial_eval (st.values ++ [(poly.num_vars - 1, r)]),
            st.g_prev.partial_eval [(0, r)] with
        | some lhs, some rhs =>
          if polyEqB lhs rhs then Except.ok ()
          else Except.error (POutcome.reject RejectReason.FinalCheckFailure poly.num_vars)
        | _, _ => Except.error POutcome.panic

/-! ## The same engine at the source's true `i32` width

The definitions above idealize the coefficient arithmetic at unbounded
width.  The family below is the bit-exact release-build model: identical
code, with every intermediate product and sum wrapped at 32 bits (via
`wrap32`/`mul32`/`modular_pow32`) before `rem_euclid`, exactly as the
source's `i32` arithmetic behaves when it overflows.  It is used to
establish where the two widths diverge on reachable inputs. -/

/-- `upsertAddMod` with the accumulating addition performed in `i32`:
`(*c + v)` wraps before `rem_euclid`. -/
def upsertAddMod32 : List (List Nat × Int) → List Nat → Int → Int → List (List Nat × Int)
  | [], k, v, _ => [(k, v)]
  | kv :: rest, k, v, md =>
    if kv.1 = k then (kv.1, wrap32 (kv.2 + v) % md) :: rest
    else kv :: upsertAddMod32 rest k v md

/-- `peTerm` at `i32` width: `modular_pow` computed by `modular_pow32`
and the coefficient product `new_coeff * mod_exp` wrapped at 32 bits
before `rem_euclid`, as in src/src/lib.rs lines 103-104. -/
def peTerm32 (em : List (Nat × Int)) (md : Int) : List Nat → Nat → Int → Int × List Nat
  | [], _, c => (c, [])
  | exp :: rest, idx, c =>
    match lookupNat em idx with
    | some v => peTerm32 em md rest (idx + 1) (wrap32 (c * modular_pow32 v exp md) % md)
    | none =>
      let r := peTerm32 em md rest (idx + 1) c
      (r.1, exp :: r.2)

/-- `partial_eval` at `i32` width. -/
def MultiVarPolynomial.partial_eval32 (p : MultiVarPolynomial) (values : List (Nat × Int)) :
    Option MultiVarPolynomial :=
  let em := toEvalMap values
  let new_terms := p.terms.foldl
    (fun acc kv =>
      let rc := peTerm32 em p.modulus kv.1 0 kv.2
      upsertAddMod32 acc rc.2 rc.1 p.modulus) []
  if p.num_vars < em.length then none
  else some ⟨new_terms, p.num_vars - em.length, p.modulus⟩

/-- `add_term` at `i32` width (the merge addition wraps). -/
def MultiVarPolynomial.add_term32 (p : MultiVarPolynomial) (exponents : List Nat)
    (coefficient : Int) : Option MultiVarPolynomial :=
  if exponents.length ≠ p.num_vars then none
  else some ⟨upsertAddMod32 p.terms exponents (coefficient % p.modulus) p.modulus,
    p.num_vars, p.modulus⟩

/-- `impl Add` at `i32` width. -/
def MultiVarPolynomial.add32 (p other : MultiVarPolynomial) : Option MultiVarPolynomial :=
  if p.num_vars ≠ other.num_vars then none
  else if p.modulus ≠ other.modulus then none
  else other.terms.foldl (fun acc kv => acc.bind fun q => q.add_term32 kv.1 kv.2) (some p)

/-- `bool_sum` at `i32` width. -/
def MultiVarPolynomial.bool_sum32 (p : MultiVarPolynomial) : Option MultiVarPolynomial :=
  if p.num_vars = 0 then none
  else
    match p.partial_eval32 [(p.num_vars - 1, 0)], p.partial_eval32 [(p.num_vars - 1, 1)] with
    | some a, some b => a.add32 b
    | _, _ => none

/-- `compute_g_j`'s reduction loop at `i32` width. -/
def boolSumIter32 : Nat → MultiVarPolynomial → Nat → Option MultiVarPolynomial
  | 0, p, target => if target < p.num_vars then none else some p
  | fuel + 1, p, target =>
    if target < p.num_vars then
      match p.bool_sum32 with
      | some q => boolSumIter32 fuel q target
      | none => none
    else some p

/-- `compute_g_j` at `i32` width. -/
def compute_g_j32 (poly : MultiVarPolynomial) (num_remaining_vars : Nat)
    (values : List (Nat × Int)) : Option MultiVarPolynomial :=
  match (if values = [] then some poly else poly.partial_eval32 values) with
  | none => none
  | some reduced => boolSumIter32 reduced.num_vars reduced num_remaining_vars

/-- One round of `run_protocol` at `i32` width. -/
def protoRound32 (poly : MultiVarPolynomial) (pov : Nat → Option MultiVarPolynomial)
    (vov : Nat → Option Int) (rand : Nat → Int) (num_var : Nat) (st : RunSt) :
    Except POutcome RunSt :=
  let pushed : RunSt × Int :=
    if 1 < num_var then
      match vov (num_var - 1) with
      | some r => (⟨st.g_prev, st.values ++ [(num_var - 2, r)], st.k⟩, r)
      | none => (⟨st.g_prev, st.values ++ [(num_var - 2, rand st.k)], st.k + 1⟩, rand st.k)
    else (st, 0)
  match (match pov num_var with
         | some og => some og
         | none => compute_g_j32 poly 1 pushed.1.values) with
  | none => Except.error POutcome.panic
  | some g =>
    if g.num_vars ≠ 1 then Except.error (POutcome.reject RejectReason.NotUnivariate num_var)
    else
      match g.degree_in_var 0, poly.degree_in_var (num_var - 1) with
      | some dg, some dp =>
        if dp < dg then Except.error (POutcome.reject RejectReason.DegreeExceeded num_var)
        else
          match pushed.1.g_prev.partial_eval32
              (if 1 < num_var then [(0, pushed.2)] else []), g.bool_sum32 with
          | some lhs, some rhs =>
            if polyEqB lhs rhs then Except.ok ⟨g, pushed.1.values, pushed.1.k⟩
            else Except.error (POutcome.reject RejectReason.ConsistencyFailure num_var)
          | _, _ => Except.error POutcome.panic
      | _, _ => Except.error POutcome.panic

/-- The round loop at `i32` width. -/
def protoLoop32 (poly : MultiVarPolynomial) (pov : Nat → Option MultiVarPolynomial)
    (vov : Nat → Option Int) (rand : Nat → Int) : Nat → Nat → RunSt → Except POutcome RunSt
  | _, 0, st => Except.ok st
  | num_var, left + 1, st =>
    match protoRound32 poly pov vov rand num_var st with
    | Except.ok st' => protoLoop32 poly pov vov rand (num_var + 1) left st'
    | Except.error e => Except.error e

/-- `run_protocol` at `i32` width: the release-build behaviour of the
source, bit for bit. -/
def run_protocol32 (poly : MultiVarPolynomial) (pov : Nat → Option MultiVarPolynomial)
    (vov : Nat → Option Int) (rand : Nat → Int) : Except POutcome Unit :=
  match compute_g_j32 poly 0 [] with
  | none => Except.error POutcome.panic
  | some c =>
    match protoLoop32 poly pov vov rand 1 poly.num_vars ⟨c, [], 0⟩ with
    | Except.error e => Except.error e
    | Except.ok st =>
      if poly.num_vars = 0 then Except.error POutcome.panic
      else
        let r : Int := match vov poly.num_vars with
          | some r => r
          | none => rand st.k
        match poly.partial_eval32 (st.values ++ [(poly.num_vars - 1, r)]),
            st.g_prev.partial_eval32 [(0, r)] with
        | some lhs, some rhs =>
          if polyEqB lhs rhs then Except.ok ()
          else Except.error (POutcome.reject RejectReason.FinalCheckFailure poly.num_vars)
        | _, _ => Except.error POutcome.panic

/-! ## Semantic reference: evaluation over the integers mod `modulus` -/

/-- Value of a monomial: the product of `xs i ^ e i` over the positions. -/
def monoEval : List Int → List Nat → Int
  | _, [] => 1
  | [], _ :: _ => 1
  | x :: xs, n :: e => x ^ n * monoEval xs e

/-- Evaluation of a term list at a point (no reduction: compared mod the
modulus via `Int.ModEq`). -/
def polyEvalAux (ts : List (List Nat × Int)) (xs : List Int) : Int :=
  (ts.map fun kv => kv.2 * monoEval xs kv.1).sum

/-- Mathematical evaluation of a polynomial at a point, one value per
variable in order. -/
def polyEval (p : MultiVarPolynomial) (xs : List Int) : Int :=
  polyEvalAux p.terms xs

/-- The full point a partial evaluation works at: assigned positions take
their value from the eval map, free positions consume `xs` in order. -/
def slots (em : List (Nat × Int)) : Nat → Nat → List Int → List Int
  | _, 0, _ => []
  | idx, len + 1, xs =>
    match lookupNat em idx with
    | some v => v :: slots em (idx + 1) len xs
    | none => xs.headD 0 :: slots em (idx + 1) len (xs.tail)

/-- Number of free (unassigned) positions among `idx, …, idx+len-1`. -/
def freeCount (em : List (Nat × Int)) : Nat → Nat → Nat
  | _, 0 => 0
  | idx, len + 1 =>
    match lookupNat em idx with
    | some _ => freeCount em (idx + 1) len
    | none => freeCount em (idx + 1) len + 1

/-- All 0/1 assignments of `t` boolean variables, grown at the tail the
way iterated `bool_sum` fixes the last variable first. -/
def cube : Nat → List (List Int)
  | 0 => [[]]
  | t + 1 => (cube t).flatMap fun bs => [bs ++ [0], bs ++ [1]]

/-- The assignment list `[(0, rand 0), …, (k-1, rand (k-1))]` accumulated
by an honest run after `k` challenges. -/
def chalAsn (rand : Nat → Int) (k : Nat) : List (Nat × Int) :=
  (List.range k).map fun i => (i, rand i)

/-- The first `k` challenge values themselves. -/
def chalVals (rand : Nat → Int) (k : Nat) : List Int :=
  (List.range k).map rand

/-- The point described by a full assignment list, one value per
variable in variable order (duplicates resolved the way the code's
eval map resolves them). -/
def pointOf (vs : List (Nat × Int)) (n : Nat) : List Int :=
  (List.range n).map fun i => (lookupNat (toEvalMap vs) i).getD 0

/-- Spec §3 invariants of a polynomial value, together with the HashMap
key-uniqueness fact the association-list embedding needs: positive
modulus, every key of length `num_vars`, every coefficient a canonical
residue, keys pairwise distinct. -/
def WF (p : MultiVarPolynomial) : Prop :=
  0 < p.modulus ∧
    (∀ kv ∈ p.terms, (kv : List Nat × Int).1.length = p.num_vars) ∧
    (∀ kv ∈ p.terms, 0 ≤ (kv : List Nat × Int).2 ∧ kv.2 < p.modulus) ∧
    (p.terms.map Prod.fst).Nodup

/-- The polynomial values reachable through the public operations used as
the spec's §4.2 contracts intend: construction, `add_term` with matching
arity, `add`, `partial_eval` with unique in-range indices, `bool_sum`. -/
inductive Reachable : MultiVarPolynomial → Prop where
  | new : ∀ nv m p, MultiVarPolynomial.new nv m = some p → Reachable p
  | term : ∀ p k c q, Reachable p → p.add_term k c = some q → Reachable q
  | padd : ∀ p₁ p₂ q, Reachable p₁ → Reachable p₂ → p₁.add p₂ = some q → Reachable q
  | peval : ∀ p vs q, Reachable p → (vs.map Prod.fst).Nodup →
      (∀ kv ∈ vs, (kv : Nat × Int).1 < p.num_vars) → p.partial_eval vs = some q → Reachable q
  | bsum : ∀ p q, Reachable p → p.bool_sum = some q → Reachable q

/-- The concrete 3-variable polynomial of the spec's scenarios 1-2:
`2x₁³ + x₁x₃ + x₂x₃` over `F₉₇`. -/
def poly3 : MultiVarPolynomial :=
  ⟨[([3, 0, 0], 2), ([1, 0, 1], 1), ([0, 1, 1], 1)], 3, 97⟩

/-- The dishonest round-1 message of scenario 2: `g₁(X) = 8X³ + 2X`. -/
def badG1 : MultiVarPolynomial :=
  ⟨[([3], 8), ([1], 2)], 1, 97⟩

/-! ## Basic lemmas: modular arithmetic -/

/-- Reduction is congruent: `a % n` and `a` agree mod `n`. -/
theorem emod_modeq (a n : Int) : a % n ≡ a [ZMOD n] :=
  Int.emod_emod_of_dvd a dvd_rfl

/-- Pointwise congruent summands give congruent sums. -/
theorem sum_modeq {m : Int} (f g : α → Int) :
    ∀ l : List α, (∀ x ∈ l, f x ≡ g x [ZMOD m]) →
      (l.map f).sum ≡ (l.map g).sum [ZMOD m] := by
  intro l
  induction l with
  | nil => intro _; rfl
  | cons a l ih =>
    intro h
    simpa using Int.ModEq.add (h a (by simp)) (ih fun x hx => h x (by simp [hx]))

theorem mpLoop_modeq (m : Int) :
    ∀ fuel exp r b, exp ≤ fuel → mpLoop fuel r b exp m ≡ r * b ^ exp [ZMOD m] := by
  intro fuel
  induction fuel with
  | zero => intro exp r b h; interval_cases exp; simp [mpLoop]
  | succ fuel ih =>
    intro exp r b h
    by_cases h0 : exp = 0
    · simp [mpLoop, h0]
    · have hdiv : exp / 2 ≤ fuel :=
        Nat.le_of_lt_succ (Nat.lt_of_lt_of_le (Nat.div_lt_self (Nat.pos_of_ne_zero h0) one_lt_two) h)
      have hsplit : 2 * (exp / 2) + exp % 2 = exp := Nat.div_add_mod exp 2
      have hb : ((b * b) % m) ^ (exp / 2) ≡ b ^ (2 * (exp / 2)) [ZMOD m] := by
        calc ((b * b) % m) ^ (exp / 2) ≡ (b * b) ^ (exp / 2) [ZMOD m] :=
              (emod_modeq (b * b) m).pow _
          _ = b ^ (2 * (exp / 2)) := by rw [pow_mul, sq]
      rw [mpLoop]
      simp only [h0, if_false]
      by_cases hpar : exp % 2 = 1
      · have := ih (exp / 2) ((r * b) % m) ((b * b) % m) hdiv
        simp only [hpar, if_pos rfl]
        have hexp : exp = 2 * (exp / 2) + 1 := by omega
        calc mpLoop fuel ((r * b) % m) ((b * b) % m) (exp / 2) m
            ≡ (r * b) % m * ((b * b) % m) ^ (exp / 2) [ZMOD m] := this
          _ ≡ (r * b) * b ^ (2 * (exp / 2)) [ZMOD m] :=
              Int.ModEq.mul (emod_modeq (r * b) m) hb
          _ = r * b ^ exp := by
              conv_rhs => rw [hexp]
              ring
      · have hpar0 : exp % 2 = 0 := by omega
        have := ih (exp / 2) r ((b * b) % m) hdiv
        simp only [hpar, if_false]
        have hexp : exp = 2 * (exp / 2) := by omega
        calc mpLoop fuel r ((b * b) % m) (exp / 2) m
            ≡ r * ((b * b) % m) ^ (exp / 2) [ZMOD m] := this
          _ ≡ r * b ^ (2 * (exp / 2)) [ZMOD m] := Int.ModEq.mul_left r hb
          _ = r * b ^ exp := by
              conv_rhs => rw [hexp]

theorem mpLoop_range {m : Int} (hm : 0 < m) :
    ∀ fuel exp r b, 0 ≤ r → r < m →
      0 ≤ mpLoop fuel r b exp m ∧ mpLoop fuel r b exp m < m := by
  intro fuel
  induction fuel with
  | zero => intro exp r b h0 h1; exact ⟨h0, h1⟩
  | succ fuel ih =>
    intro exp r b h0 h1
    rw [mpLoop]
    by_cases hz : exp = 0
    · simpa [hz] using ⟨h0, h1⟩
    · simp only [hz, if_false]
      by_cases hpar : exp % 2 = 1
      · simp only [hpar, if_pos rfl]
        exact ih _ _ _ (Int.emod_nonneg _ (ne_of_gt hm)) (Int.emod_lt_of_pos _ hm)
      · simp only [hpar, if_false]
        exact ih _ _ _ h0 h1

/-- `modular_pow` is congruent to the true power mod the modulus. -/
theorem modular_pow_modeq (b : Int) (e : Nat) (m : Int) :
    modular_pow b e m ≡ b ^ e [ZMOD m] := by
  calc modular_pow b e m ≡ 1 * (b % m) ^ e [ZMOD m] := mpLoop_modeq m e e 1 (b % m) le_rfl
    _ ≡ 1 * b ^ e [ZMOD m] := Int.ModEq.mul_left 1 ((emod_modeq b m).pow e)
    _ = b ^ e := one_mul _

/-- `modular_pow` lands in the canonical range when the modulus exceeds 1. -/
theorem modular_pow_range {m : Int} (hm : 1 < m) (b : Int) (e : Nat) :
    0 ≤ modular_pow b e m ∧ modular_pow b e m < m :=
  mpLoop_range (lt_trans one_pos hm) e e 1 (b % m) zero_le_one hm

/-- A modulus `is_prime` accepts is greater than 1. -/
theorem is_prime_one_lt {m : Int} (h : is_prime m = true) : 1 < m := by
  by_contra hc
  have : m ≤ 1 := not_lt.mp hc
  simp [is_prime, this] at h

/-! ## Basic lemmas: list maxima and assoc-list term maps -/

theorem le_maxOr0 {x : Nat} : ∀ {l : List Nat}, x ∈ l → x ≤ maxOr0 l := by
  intro l
  induction l with
  | nil => intro h; cases h
  | cons a l ih =>
    intro h
    rcases List.mem_cons.mp h with rfl | h
    · exact Nat.le_max_left _ _
    · exact le_trans (ih h) (Nat.le_max_right _ _)

theorem maxOr0_le {d : Nat} : ∀ {l : List Nat}, (∀ x ∈ l, x ≤ d) → maxOr0 l ≤ d := by
  intro l
  induction l with
  | nil => intro _; exact Nat.zero_le d
  | cons a l ih =>
    intro h
    exact Nat.max_le.mpr ⟨h a (by simp), ih fun x hx => h x (by simp [hx])⟩

theorem lookupKey_isSome_iff (k : List Nat) :
    ∀ ts : List (List Nat × Int), (lookupKey ts k).isSome ↔ k ∈ ts.map Prod.fst := by
  intro ts
  induction ts with
  | nil => simp [lookupKey]
  | cons kv ts ih =>
    by_cases h : kv.1 = k
    · simp [lookupKey, h]
    · simp [lookupKey, h, ih, Ne.symm h]

theorem lookupKey_mem {k : List Nat} {v : Int} :
    ∀ {ts : List (List Nat × Int)}, lookupKey ts k = some v → (k, v) ∈ ts := by
  intro ts
  induction ts with
  | nil => intro h; cases h
  | cons kv ts ih =>
    intro h
    by_cases hk : kv.1 = k
    · rw [lookupKey, if_pos hk] at h
      rw [← hk, ← Option.some.inj h]
      exact List.mem_cons_self _ _
    · rw [lookupKey, if_neg hk] at h
      exact List.mem_cons_of_mem _ (ih h)

theorem mem_lookupKey {k : List Nat} {v : Int} :
    ∀ {ts : List (List Nat × Int)}, (ts.map Prod.fst).Nodup → (k, v) ∈ ts →
      lookupKey ts k = some v := by
  intro ts
  induction ts with
  | nil => intro _ h; cases h
  | cons kv ts ih =>
    intro hnd h
    rcases List.mem_cons.mp h with rfl | h
    · simp [lookupKey]
    · have hk : kv.1 ≠ k := by
        intro hc
        have : k ∈ ts.map Prod.fst := List.mem_map.mpr ⟨(k, v), h, rfl⟩
        simp_all
      rw [lookupKey, if_neg hk]
      exact ih (List.Nodup.of_cons hnd) h

theorem upsertAddMod_ne_nil (k : List Nat) (v md : Int) :
    ∀ ts : List (List Nat × Int), upsertAddMod ts k v md ≠ [] := by
  intro ts
  cases ts with
  | nil => simp [upsertAddMod]
  | cons kv ts =>
    rw [upsertAddMod]
    split <;> simp

theorem keys_upsertAddMod (k : List Nat) (v md : Int) :
    ∀ ts : List (List Nat × Int),
      (upsertAddMod ts k v md).map Prod.fst =
        if k ∈ ts.map Prod.fst then ts.map Prod.fst else ts.map Prod.fst ++ [k] := by
  intro ts
  induction ts with
  | nil => simp [upsertAddMod]
  | cons kv ts ih =>
    by_cases h : kv.1 = k
    · simp [upsertAddMod, h]
    · simp only [upsertAddMod, if_neg h, List.map_cons, ih]
      by_cases hmem : k ∈ ts.map Prod.fst
      · simp [hmem, Ne.symm h]
      · simp [hmem, Ne.symm h]

theorem nodup_keys_upsertAddMod {k : List Nat} {v md : Int} {ts : List (List Nat × Int)}
    (h : (ts.map Prod.fst).Nodup) : ((upsertAddMod ts k v md).map Prod.fst).Nodup := by
  rw [keys_upsertAddMod]
  split
  · exact h
  · next hmem =>
      refine List.Nodup.append h (List.nodup_singleton _) ?_
      intro a ha hak
      rw [List.mem_singleton] at hak
      exact hmem (hak ▸ ha)

theorem mem_upsertAddMod {k : List Nat} {v md : Int} {ts : List (List Nat × Int)} :
    ∀ kv ∈ upsertAddMod ts k v md, kv ∈ ts ∨ ((kv : List Nat × Int).1 = k ∧
      (kv.2 = v ∨ ∃ w, kv.2 = (w + v) % md)) := by
  induction ts with
  | nil =>
    intro kv h
    simp only [upsertAddMod, List.mem_singleton] at h
    exact Or.inr (by simp [h])
  | cons kv₀ ts ih =>
    intro kv h
    rw [upsertAddMod] at h
    by_cases h0 : kv₀.1 = k
    · rw [if_pos h0] at h
      rcases List.mem_cons.mp h with rfl | h
      · exact Or.inr ⟨h0, Or.inr ⟨kv₀.2, rfl⟩⟩
      · exact Or.inl (List.mem_cons_of_mem _ h)
    · rw [if_neg h0] at h
      rcases List.mem_cons.mp h with rfl | h
      · exact Or.inl (List.mem_cons_self _ _)
      · rcases ih kv h with h' | h'
        · exact Or.inl (List.mem_cons_of_mem _ h')
        · exact Or.inr h'

theorem coeffs_upsertAddMod {k : List Nat} {v md : Int} {ts : List (List Nat × Int)}
    (hmd : 0 < md) (hts : ∀ kv ∈ ts, 0 ≤ (kv : List Nat × Int).2 ∧ kv.2 < md)
    (hv : 0 ≤ v ∧ v < md) :
    ∀ kv ∈ upsertAddMod ts k v md, 0 ≤ (kv : List Nat × Int).2 ∧ kv.2 < md := by
  intro kv h
  rcases mem_upsertAddMod kv h with h' | ⟨_, h'⟩
  · exact hts kv h'
  · rcases h' with rfl | ⟨w, hw⟩
    · exact hv
    · exact hw ▸ ⟨Int.emod_nonneg _ (ne_of_gt hmd), Int.emod_lt_of_pos _ hmd⟩

theorem keylens_upsertAddMod {k : List Nat} {v md : Int} {ts : List (List Nat × Int)} {n : Nat}
    (hts : ∀ kv ∈ ts, (kv : List Nat × Int).1.length = n) (hk : k.length = n) :
    ∀ kv ∈ upsertAddMod ts k v md, (kv : List Nat × Int).1.length = n := by
  intro kv h
  rcases mem_upsertAddMod kv h with h' | ⟨h', _⟩
  · exact hts kv h'
  · exact h' ▸ hk

@[simp] theorem polyEvalAux_nil (xs : List Int) : polyEvalAux [] xs = 0 := rfl

@[simp] theorem polyEvalAux_cons (kv : List Nat × Int) (ts : List (List Nat × Int))
    (xs : List Int) :
    polyEvalAux (kv :: ts) xs = kv.2 * monoEval xs kv.1 + polyEvalAux ts xs := rfl

/-- Accumulating a coefficient into the map adds its contribution to the
evaluation, mod the modulus. -/
theorem polyEvalAux_upsertAddMod {md : Int} (k : List Nat) (v : Int) (xs : List Int) :
    ∀ ts : List (List Nat × Int),
      polyEvalAux (upsertAddMod ts k v md) xs ≡
        polyEvalAux ts xs + v * monoEval xs k [ZMOD md] := by
  intro ts
  induction ts with
  | nil => simp [upsertAddMod, Int.add_comm]
  | cons kv ts ih =>
    by_cases h : kv.1 = k
    · subst h
      rw [upsertAddMod, if_pos rfl]
      simp only [polyEvalAux_cons]
      have : (kv.2 + v) % md * monoEval xs kv.1 ≡
          kv.2 * monoEval xs kv.1 + v * monoEval xs kv.1 [ZMOD md] := by
        calc (kv.2 + v) % md * monoEval xs kv.1
            ≡ (kv.2 + v) * monoEval xs kv.1 [ZMOD md] :=
              Int.ModEq.mul_right _ (emod_modeq _ _)
          _ = kv.2 * monoEval xs kv.1 + v * monoEval xs kv.1 := by ring
      calc (kv.2 + v) % md * monoEval xs kv.1 + polyEvalAux ts xs
          ≡ kv.2 * monoEval xs kv.1 + v * monoEval xs kv.1 + polyEvalAux ts xs [ZMOD md] :=
            Int.ModEq.add_right _ this
        _ = kv.2 * monoEval xs kv.1 + polyEvalAux ts xs + v * monoEval xs kv.1 := by ring
    · rw [upsertAddMod, if_neg h]
      simp only [polyEvalAux_cons]
      calc kv.2 * monoEval xs kv.1 + polyEvalAux (upsertAddMod ts k v md) xs
          ≡ kv.2 * monoEval xs kv.1 + (polyEvalAux ts xs + v * monoEval xs k) [ZMOD md] :=
            Int.ModEq.add_left _ ih
        _ = kv.2 * monoEval xs kv.1 + polyEvalAux ts xs + v * monoEval xs k := by ring

/-! ## Lemmas about the eval map -/

theorem lookupNat_isSome_iff (k : Nat) :
    ∀ em : List (Nat × Int), (lookupNat em k).isSome ↔ k ∈ em.map Prod.fst := by
  intro em
  induction em with
  | nil => simp [lookupNat]
  | cons kv em ih =>
    by_cases h : kv.1 = k
    · simp [lookupNat, h]
    · simp [lookupNat, h, ih, Ne.symm h]

theorem keys_upsertReplace (k : Nat) (v : Int) :
    ∀ em : List (Nat × Int),
      (upsertReplace em k v).map Prod.fst =
        if k ∈ em.map Prod.fst then em.map Prod.fst else em.map Prod.fst ++ [k] := by
  intro em
  induction em with
  | nil => simp [upsertReplace]
  | cons kv em ih =>
    by_cases h : kv.1 = k
    · simp [upsertReplace, h]
    · simp only [upsertReplace, if_neg h, List.map_cons, ih]
      by_cases hmem : k ∈ em.map Prod.fst
      · simp [hmem, Ne.symm h]
      · simp [hmem, Ne.symm h]

theorem nodup_keys_upsertReplace {k : Nat} {v : Int} {em : List (Nat × Int)}
    (h : (em.map Prod.fst).Nodup) : ((upsertReplace em k v).map Prod.fst).Nodup := by
  rw [keys_upsertReplace]
  split
  · exact h
  · next hmem =>
      refine List.Nodup.append h (List.nodup_singleton _) ?_
      intro a ha hak
      rw [List.mem_singleton] at hak
      exact hmem (hak ▸ ha)

theorem nodup_keys_toEvalMapAux :
    ∀ (vs : List (Nat × Int)) (em : List (Nat × Int)), (em.map Prod.fst).Nodup →
      (((vs.foldl (fun m kv => upsertReplace m kv.1 kv.2) em)).map Prod.fst).Nodup := by
  intro vs
  induction vs with
  | nil => intro em h; exact h
  | cons kv vs ih => intro em h; exact ih _ (nodup_keys_upsertReplace h)

/-- The collected eval map never holds a key twice. -/
theorem nodup_keys_toEvalMap (vs : List (Nat × Int)) :
    ((toEvalMap vs).map Prod.fst).Nodup :=
  nodup_keys_toEvalMapAux vs [] (by simp)

theorem keys_toEvalMapAux_origin :
    ∀ (vs em : List (Nat × Int)) (k : Nat),
      k ∈ ((vs.foldl (fun m kv => upsertReplace m kv.1 kv.2) em)).map Prod.fst →
      k ∈ em.map Prod.fst ∨ k ∈ vs.map Prod.fst := by
  intro vs
  induction vs with
  | nil => intro em k h; exact Or.inl h
  | cons kv vs ih =>
    intro em k h
    rcases ih _ k h with h' | h'
    · rw [keys_upsertReplace] at h'
      split at h'
      · exact Or.inl h'
      · rcases List.mem_append.mp h' with h'' | h''
        · exact Or.inl h''
        · simp at h''
          exact Or.inr (by simp [h''])
    · exact Or.inr (by simp [h'])

/-- Every key of the collected eval map is an index of the input list. -/
theorem keys_toEvalMap_origin {vs : List (Nat × Int)} {k : Nat}
    (h : k ∈ (toEvalMap vs).map Prod.fst) : k ∈ vs.map Prod.fst := by
  rcases keys_toEvalMapAux_origin vs [] k h with h' | h'
  · cases h'
  · exact h'

theorem lookupNat_append (k : Nat) :
    ∀ a b : List (Nat × Int), lookupNat (a ++ b) k =
      match lookupNat a k with
      | some v => some v
      | none => lookupNat b k := by
  intro a b
  induction a with
  | nil => simp [lookupNat]
  | cons kv a ih =>
    by_cases h : kv.1 = k
    · simp [lookupNat, h]
    · simp [lookupNat, h, ih]

theorem upsertReplace_notMem {k : Nat} {v : Int} :
    ∀ {em : List (Nat × Int)}, k ∉ em.map Prod.fst → upsertReplace em k v = em ++ [(k, v)] := by
  intro em
  induction em with
  | nil => intro _; rfl
  | cons kv em ih =>
    intro h
    have h1 : kv.1 ≠ k := by
      intro hc
      exact h (by simp [hc])
    rw [upsertReplace, if_neg h1, ih fun hc => h (by simp [hc])]
    simp

theorem foldl_upsertReplace_of_nodup :
    ∀ vs acc : List (Nat × Int), (vs.map Prod.fst).Nodup →
      (∀ j ∈ vs.map Prod.fst, j ∉ acc.map Prod.fst) →
      vs.foldl (fun m kv => upsertReplace m kv.1 kv.2) acc = acc ++ vs := by
  intro vs
  induction vs with
  | nil => intro acc _ _; simp
  | cons kv vs ih =>
    intro acc hnd hdisj
    have h1 : upsertReplace acc kv.1 kv.2 = acc ++ [kv] := by
      rw [upsertReplace_notMem (hdisj kv.1 (by simp))]
    rw [List.foldl_cons, h1, ih (acc ++ [kv]) (List.Nodup.of_cons hnd)]
    · simp
    · intro j hj hmem
      rcases List.mem_map.mp hmem with ⟨kv', hkv', hfst⟩
      rcases List.mem_append.mp hkv' with h' | h'
      · exact hdisj j (by simp [hj]) (List.mem_map.mpr ⟨kv', h', hfst⟩)
      · rw [List.mem_singleton] at h'
        subst h'
        have : kv'.1 ∉ vs.map Prod.fst := (List.nodup_cons.mp (by simpa using hnd)).1
        exact this (hfst ▸ hj)

/-- Collecting an assignment list whose indices are pairwise distinct
reproduces the list itself. -/
theorem toEvalMap_self {vs : List (Nat × Int)} (h : (vs.map Prod.fst).Nodup) :
    toEvalMap vs = vs := by
  simpa using foldl_upsertReplace_of_nodup vs [] h (by simp)

theorem chalAsn_keys (rand : Nat → Int) (k : Nat) :
    (chalAsn rand k).map Prod.fst = List.range k := by
  simp [chalAsn, List.map_map, Function.comp_def]

theorem chalAsn_snoc (rand : Nat → Int) (k : Nat) :
    chalAsn rand (k + 1) = chalAsn rand k ++ [(k, rand k)] := by
  simp [chalAsn, List.range_succ]

theorem chalVals_snoc (rand : Nat → Int) (k : Nat) :
    chalVals rand (k + 1) = chalVals rand k ++ [rand k] := by
  simp [chalVals, List.range_succ]

@[simp] theorem chalAsn_zero (rand : Nat → Int) : chalAsn rand 0 = [] := rfl

@[simp] theorem chalVals_zero (rand : Nat → Int) : chalVals rand 0 = [] := rfl

@[simp] theorem chalAsn_length (rand : Nat → Int) (k : Nat) : (chalAsn rand k).length = k := by
  simp [chalAsn]

theorem nodup_chalAsn_keys (rand : Nat → Int) (k : Nat) :
    ((chalAsn rand k).map Prod.fst).Nodup := by
  rw [chalAsn_keys]
  exact List.nodup_range k

theorem toEvalMap_chalAsn (rand : Nat → Int) (k : Nat) :
    toEvalMap (chalAsn rand k) = chalAsn rand k :=
  toEvalMap_self (nodup_chalAsn_keys rand k)

theorem lookupNat_chalAsn (rand : Nat → Int) :
    ∀ k i, lookupNat (chalAsn rand k) i = if i < k then some (rand i) else none := by
  intro k
  induction k with
  | zero => intro i; simp [lookupNat]
  | succ k ih =>
    intro i
    rw [chalAsn_snoc, lookupNat_append, ih]
    by_cases h : i < k
    · simp [h, Nat.lt_succ_of_lt h]
    · by_cases h2 : i = k
      · subst h2
        simp [lookupNat, Nat.lt_irrefl, Nat.lt_succ_self]
      · have h3 : ¬i < k + 1 := by omega
        have h4 : k ≠ i := fun hc => h2 hc.symm
        simp [h, h2, h3, lookupNat, h4]

/-! ## Per-term lemmas for `partial_eval` -/

@[simp] theorem monoEval_nil_right (xs : List Int) : monoEval xs [] = 1 := by
  cases xs <;> rfl

@[simp] theorem monoEval_cons (x : Int) (xs : List Int) (n : Nat) (e : List Nat) :
    monoEval (x :: xs) (n :: e) = x ^ n * monoEval xs e := rfl

theorem peTerm_coeff_range {em : List (Nat × Int)} {md : Int} (hmd : 0 < md) :
    ∀ (e : List Nat) (idx : Nat) (c : Int), 0 ≤ c → c < md →
      0 ≤ (peTerm em md e idx c).1 ∧ (peTerm em md e idx c).1 < md := by
  intro e
  induction e with
  | nil => intro idx c h0 h1; exact ⟨h0, h1⟩
  | cons exp rest ih =>
    intro idx c h0 h1
    rw [peTerm]
    cases hl : lookupNat em idx with
    | some v =>
      exact ih (idx + 1) _ (Int.emod_nonneg _ (ne_of_gt hmd)) (Int.emod_lt_of_pos _ hmd)
    | none => exact ih (idx + 1) c h0 h1

theorem peTerm_keylen {em : List (Nat × Int)} {md : Int} :
    ∀ (e : List Nat) (idx : Nat) (c : Int),
      (peTerm em md e idx c).2.length = freeCount em idx e.length := by
  intro e
  induction e with
  | nil => intro idx c; rfl
  | cons exp rest ih =>
    intro idx c
    rw [peTerm, List.length_cons, freeCount]
    cases hl : lookupNat em idx with
    | some v => exact ih (idx + 1) _
    | none => simp [ih (idx + 1) c]

/-- The reduced coefficient and reduced exponent tuple of one term stand,
mod the modulus, for the original coefficient times the monomial taken at
the combined point. -/
theorem peTerm_modeq {em : List (Nat × Int)} {md : Int} :
    ∀ (e : List Nat) (idx : Nat) (c : Int) (xs : List Int),
      freeCount em idx e.length ≤ xs.length →
      (peTerm em md e idx c).1 * monoEval xs (peTerm em md e idx c).2 ≡
        c * monoEval (slots em idx e.length xs) e [ZMOD md] := by
  intro e
  induction e with
  | nil => intro idx c xs _; simp [peTerm]
  | cons exp rest ih =>
    intro idx c xs hlen
    simp only [List.length_cons] at hlen ⊢
    cases hl : lookupNat em idx with
    | some v =>
      have hfc : freeCount em idx (rest.length + 1) = freeCount em (idx + 1) rest.length := by
        rw [freeCount, hl]
      rw [hfc] at hlen
      simp only [peTerm, hl]
      have hIH := ih (idx + 1) ((c * modular_pow v exp md) % md) xs hlen
      have h1 : slots em idx (rest.length + 1) xs = v :: slots em (idx + 1) rest.length xs := by
        simp only [slots, hl]
      rw [h1, monoEval_cons]
      refine hIH.trans ?_
      calc (c * modular_pow v exp md) % md * monoEval (slots em (idx + 1) rest.length xs) rest
          ≡ c * modular_pow v exp md *
              monoEval (slots em (idx + 1) rest.length xs) rest [ZMOD md] :=
            Int.ModEq.mul_right _ (emod_modeq _ _)
        _ ≡ c * v ^ exp * monoEval (slots em (idx + 1) rest.length xs) rest [ZMOD md] :=
            Int.ModEq.mul_right _ (Int.ModEq.mul_left c (modular_pow_modeq v exp md))
        _ = c * (v ^ exp * monoEval (slots em (idx + 1) rest.length xs) rest) := by ring
    | none =>
      have hfc : freeCount em idx (rest.length + 1) = freeCount em (idx + 1) rest.length + 1 := by
        rw [freeCount, hl]
      rw [hfc] at hlen
      simp only [peTerm, hl]
      cases xs with
      | nil => simp at hlen
      | cons x xs' =>
        have hlen' : freeCount em (idx + 1) rest.length ≤ xs'.length := by
          simp only [List.length_cons] at hlen
          omega
        have hIH := ih (idx + 1) c xs' hlen'
        have h1 : slots em idx (rest.length + 1) (x :: xs') =
            x :: slots em (idx + 1) rest.length xs' := by
          simp only [slots, hl, List.headD_cons, List.tail_cons]
        rw [h1, monoEval_cons, monoEval_cons]
        calc (peTerm em md rest (idx + 1) c).1 *
              (x ^ exp * monoEval xs' (peTerm em md rest (idx + 1) c).2)
            = x ^ exp * ((peTerm em md rest (idx + 1) c).1 *
                monoEval xs' (peTerm em md rest (idx + 1) c).2) := by ring
          _ ≡ x ^ exp * (c * monoEval (slots em (idx + 1) rest.length xs') rest) [ZMOD md] :=
              Int.ModEq.mul_left _ hIH
          _ = c * (x ^ exp * monoEval (slots em (idx + 1) rest.length xs') rest) := by ring

/-- With all indices below `k` assigned and nothing else, a term's reduced
exponent tuple is the tail of the original from position `k` on. -/
theorem peTerm_drop {em : List (Nat × Int)} {md : Int} {k : Nat}
    (hem : ∀ i, (lookupNat em i).isSome = true ↔ i < k) :
    ∀ (e : List Nat) (idx : Nat) (c : Int), (peTerm em md e idx c).2 = e.drop (k - idx) := by
  intro e
  induction e with
  | nil => intro idx c; simp [peTerm]
  | cons exp rest ih =>
    intro idx c
    by_cases h : idx < k
    · have hs : (lookupNat em idx).isSome = true := (hem idx).mpr h
      rcases Option.isSome_iff_exists.mp hs with ⟨v, hv⟩
      simp only [peTerm, hv]
      rw [ih (idx + 1)]
      have h1 : k - idx = (k - (idx + 1)) + 1 := by omega
      rw [h1, List.drop_succ_cons]
    · have hn : lookupNat em idx = none := by
        rcases h2 : lookupNat em idx with _ | v
        · rfl
        · exact absurd ((hem idx).mp (by simp [h2])) h
      simp only [peTerm, hn]
      have h1 : k - idx = 0 := by omega
      have h2 : k - (idx + 1) = 0 := by omega
      rw [ih (idx + 1) c, h1, h2]
      simp

/-- A free head position survives as the head of the reduced tuple. -/
theorem peTerm_headD {em : List (Nat × Int)} {md : Int} {idx : Nat}
    (h : lookupNat em idx = none) (exp : Nat) (rest : List Nat) (c : Int) :
    ((peTerm em md (exp :: rest) idx c).2).headD 0 = exp := by
  simp [peTerm, h]

/-! ## Shape lemmas for `slots` and `freeCount` -/

theorem slots_cons_some {em : List (Nat × Int)} {idx : Nat} {v : Int}
    (hv : lookupNat em idx = some v) (len : Nat) (xs : List Int) :
    slots em idx (len + 1) xs = v :: slots em (idx + 1) len xs := by
  simp only [slots, hv]

theorem slots_cons_none {em : List (Nat × Int)} {idx : Nat}
    (h : lookupNat em idx = none) (len : Nat) (xs : List Int) :
    slots em idx (len + 1) xs = xs.headD 0 :: slots em (idx + 1) len xs.tail := by
  simp only [slots, h]

theorem freeCount_cons_some {em : List (Nat × Int)} {idx : Nat} {v : Int}
    (hv : lookupNat em idx = some v) (len : Nat) :
    freeCount em idx (len + 1) = freeCount em (idx + 1) len := by
  simp only [freeCount, hv]

theorem freeCount_cons_none {em : List (Nat × Int)} {idx : Nat}
    (h : lookupNat em idx = none) (len : Nat) :
    freeCount em idx (len + 1) = freeCount em (idx + 1) len + 1 := by
  simp only [freeCount, h]

theorem slots_all_none {em : List (Nat × Int)} :
    ∀ (len idx : Nat) (xs : List Int), (∀ i, idx ≤ i → i < idx + len → lookupNat em i = none) →
      len ≤ xs.length → slots em idx len xs = xs.take len := by
  intro len
  induction len with
  | zero => intro idx xs _ _; simp [slots]
  | succ len ih =>
    intro idx xs hnone hlen
    cases xs with
    | nil => simp at hlen
    | cons x xs' =>
      have h0 : lookupNat em idx = none := hnone idx le_rfl (by omega)
      simp only [slots, h0, List.headD_cons, List.tail_cons, List.take_succ_cons]
      rw [ih (idx + 1) xs' (fun i h1 h2 => hnone i (by omega) (by omega))
        (by simpa using Nat.le_of_succ_le_succ hlen)]

theorem slots_chal {em : List (Nat × Int)} {k : Nat} {f : Nat → Int}
    (hem : ∀ i, lookupNat em i = if i < k then some (f i) else none) :
    ∀ (len idx : Nat) (xs : List Int), idx ≤ k → k ≤ idx + len →
      len - (k - idx) ≤ xs.length →
      slots em idx len xs = ((List.range' idx (k - idx)).map f) ++ xs.take (len - (k - idx)) := by
  intro len
  induction len with
  | zero =>
    intro idx xs h1 h2 _
    have : k = idx := by omega
    subst this
    simp [slots]
  | succ len ih =>
    intro idx xs h1 h2 h3
    by_cases h : idx < k
    · have hl : lookupNat em idx = some (f idx) := by rw [hem idx, if_pos h]
      simp only [slots, hl]
      rw [ih (idx + 1) xs (by omega) (by omega) (by omega : len - (k - (idx + 1)) ≤ xs.length)]
      have h4 : k - idx = (k - (idx + 1)) + 1 := by omega
      have h5 : len - (k - (idx + 1)) = len + 1 - (k - idx) := by omega
      rw [h4, List.range'_succ, h5]
      simp
      omega
    · have hki : k - idx = 0 := by omega
      rw [slots_all_none (len + 1) idx xs
        (fun i hi _ => by rw [hem i, if_neg (by omega)]) (by omega)]
      rw [hki]
      simp

theorem slots_all_some {em : List (Nat × Int)} :
    ∀ (len idx : Nat) (xs : List Int),
      (∀ i, idx ≤ i → i < idx + len → (lookupNat em i).isSome = true) →
      slots em idx len xs = (List.range' idx len).map fun i => (lookupNat em i).getD 0 := by
  intro len
  induction len with
  | zero => intro idx xs _; simp [slots]
  | succ len ih =>
    intro idx xs hsome
    rcases Option.isSome_iff_exists.mp (hsome idx le_rfl (by omega)) with ⟨v, hv⟩
    rw [slots_cons_some hv, ih (idx + 1) xs fun i h1 h2 => hsome i (by omega) (by omega)]
    rw [List.range'_succ]
    simp [hv]

theorem slots_lastvar {em : List (Nat × Int)} {j : Nat} {v : Int}
    (hem : ∀ i, lookupNat em i = if i = j then some v else none) :
    ∀ (len idx : Nat) (xs : List Int), idx + len = j → len ≤ xs.length →
      slots em idx (len + 1) xs = xs.take len ++ [v] := by
  intro len
  induction len with
  | zero =>
    intro idx xs h1 _
    have hl : lookupNat em idx = some v := by rw [hem idx, if_pos (by omega)]
    simp [slots, hl]
  | succ len ih =>
    intro idx xs h1 h2
    cases xs with
    | nil => simp at h2
    | cons x xs' =>
      have hl : lookupNat em idx = none := by rw [hem idx, if_neg (by omega)]
      rw [slots_cons_none hl]
      simp only [List.headD_cons, List.tail_cons]
      rw [ih (idx + 1) xs' (by omega) (by simpa using Nat.le_of_succ_le_succ h2)]
      simp [List.take_succ_cons]

theorem freeCount_add_countP (em : List (Nat × Int)) :
    ∀ (len idx : Nat),
      freeCount em idx len + (List.range' idx len).countP (fun i => (lookupNat em i).isSome) =
        len := by
  intro len
  induction len with
  | zero => intro idx; simp [freeCount]
  | succ len ih =>
    intro idx
    rw [List.range'_succ, List.countP_cons]
    cases hl : lookupNat em idx with
    | some v =>
      rw [freeCount_cons_some hl]
      have := ih (idx + 1)
      simp only [hl, Option.isSome_some, if_true]
      omega
    | none =>
      rw [freeCount_cons_none hl]
      have := ih (idx + 1)
      simp only [hl, Option.isSome_none, Bool.false_eq_true, if_false]
      omega

theorem countP_mem_of_nodup :
    ∀ ks : List Nat, ks.Nodup → ∀ n, (∀ j ∈ ks, j < n) →
      (List.range n).countP (fun i => decide (i ∈ ks)) = ks.length := by
  intro ks hnd n hlt
  rw [List.countP_eq_length_filter]
  have hperm : List.Perm ((List.range n).filter fun i => decide (i ∈ ks)) ks := by
    rw [List.perm_ext_iff_of_nodup (List.Nodup.filter _ (List.nodup_range n)) hnd]
    intro a
    simp only [List.mem_filter, List.mem_range, decide_eq_true_eq]
    constructor
    · exact fun h => h.2
    · exact fun h => ⟨hlt a h, h⟩
  exact hperm.length_eq

/-- With pairwise distinct in-range keys, the number of assigned
positions among `0, …, n-1` is exactly the number of map entries. -/
theorem countP_lookup_of_nodup {em : List (Nat × Int)} {n : Nat}
    (hnd : (em.map Prod.fst).Nodup) (hlt : ∀ j ∈ em.map Prod.fst, j < n) :
    (List.range' 0 n).countP (fun i => (lookupNat em i).isSome) = em.length := by
  have h2 : (List.range' 0 n).countP (fun i => (lookupNat em i).isSome) =
      (List.range n).countP (fun i => decide (i ∈ em.map Prod.fst)) := by
    rw [← List.range_eq_range']
    apply List.countP_congr
    intro i _
    have h := lookupNat_isSome_iff i em
    constructor
    · intro h2
      simpa using h.mp h2
    · intro h2
      exact h.mpr (by simpa using h2)
  have h3 := countP_mem_of_nodup (em.map Prod.fst) hnd n hlt
  rw [h2, h3, List.length_map]

/-- For an eval map with pairwise distinct in-range keys, the number of
free positions is the total minus the number of entries. -/
theorem freeCount_of_nodup {em : List (Nat × Int)} {n : Nat}
    (hnd : (em.map Prod.fst).Nodup) (hlt : ∀ j ∈ em.map Prod.fst, j < n) :
    freeCount em 0 n = n - em.length := by
  have h1 := freeCount_add_countP em n 0
  rw [countP_lookup_of_nodup hnd hlt] at h1
  omega

/-! ## The accumulation fold inside `partial_eval` -/

theorem pe_fold_sem (em : List (Nat × Int)) (md : Int) (xs : List Int) :
    ∀ (ts acc : List (List Nat × Int)),
      polyEvalAux (ts.foldl (fun acc kv =>
          upsertAddMod acc (peTerm em md kv.1 0 kv.2).2 (peTerm em md kv.1 0 kv.2).1 md) acc) xs ≡
        polyEvalAux acc xs +
          (ts.map fun kv =>
            (peTerm em md kv.1 0 kv.2).1 * monoEval xs (peTerm em md kv.1 0 kv.2).2).sum
        [ZMOD md] := by
  intro ts
  induction ts with
  | nil => intro acc; simp
  | cons kv ts ih =>
    intro acc
    rw [List.foldl_cons, List.map_cons, List.sum_cons]
    calc polyEvalAux (ts.foldl _ (upsertAddMod acc (peTerm em md kv.1 0 kv.2).2
            (peTerm em md kv.1 0 kv.2).1 md)) xs
        ≡ polyEvalAux (upsertAddMod acc (peTerm em md kv.1 0 kv.2).2
            (peTerm em md kv.1 0 kv.2).1 md) xs +
          (ts.map fun kv => (peTerm em md kv.1 0 kv.2).1 *
            monoEval xs (peTerm em md kv.1 0 kv.2).2).sum [ZMOD md] := ih _
      _ ≡ polyEvalAux acc xs + (peTerm em md kv.1 0 kv.2).1 *
            monoEval xs (peTerm em md kv.1 0 kv.2).2 +
          (ts.map fun kv => (peTerm em md kv.1 0 kv.2).1 *
            monoEval xs (peTerm em md kv.1 0 kv.2).2).sum [ZMOD md] :=
          Int.ModEq.add_right _ (polyEvalAux_upsertAddMod _ _ _ _)
      _ = polyEvalAux acc xs + ((peTerm em md kv.1 0 kv.2).1 *
            monoEval xs (peTerm em md kv.1 0 kv.2).2 +
          (ts.map fun kv => (peTerm em md kv.1 0 kv.2).1 *
            monoEval xs (peTerm em md kv.1 0 kv.2).2).sum) := by ring

theorem pe_fold_mem (em : List (Nat × Int)) (md : Int) :
    ∀ (ts acc : List (List Nat × Int)) (kv' : List Nat × Int),
      kv' ∈ ts.foldl (fun acc kv =>
          upsertAddMod acc (peTerm em md kv.1 0 kv.2).2 (peTerm em md kv.1 0 kv.2).1 md) acc →
      kv' ∈ acc ∨ ∃ kv ∈ ts, kv'.1 = (peTerm em md kv.1 0 kv.2).2 := by
  intro ts
  induction ts with
  | nil => intro acc kv' h; exact Or.inl h
  | cons kv ts ih =>
    intro acc kv' h
    rw [List.foldl_cons] at h
    rcases ih _ kv' h with h' | ⟨kv₀, hkv₀, hk⟩
    · rcases mem_upsertAddMod kv' h' with h'' | ⟨hk, _⟩
      · exact Or.inl h''
      · exact Or.inr ⟨kv, List.mem_cons_self _ _, hk⟩
    · exact Or.inr ⟨kv₀, List.mem_cons_of_mem _ hkv₀, hk⟩

theorem pe_fold_nodup (em : List (Nat × Int)) (md : Int) :
    ∀ (ts acc : List (List Nat × Int)), (acc.map Prod.fst).Nodup →
      ((ts.foldl (fun acc kv =>
          upsertAddMod acc (peTerm em md kv.1 0 kv.2).2 (peTerm em md kv.1 0 kv.2).1 md)
        acc).map Prod.fst).Nodup := by
  intro ts
  induction ts with
  | nil => intro acc h; exact h
  | cons kv ts ih => intro acc h; exact ih _ (nodup_keys_upsertAddMod h)

theorem pe_fold_coeffs {em : List (Nat × Int)} {md : Int} (hmd : 0 < md) :
    ∀ (ts acc : List (List Nat × Int)),
      (∀ kv ∈ ts, 0 ≤ (kv : List Nat × Int).2 ∧ kv.2 < md) →
      (∀ kv ∈ acc, 0 ≤ (kv : List Nat × Int).2 ∧ kv.2 < md) →
      ∀ kv ∈ ts.foldl (fun acc kv =>
          upsertAddMod acc (peTerm em md kv.1 0 kv.2).2 (peTerm em md kv.1 0 kv.2).1 md) acc,
        0 ≤ (kv : List Nat × Int).2 ∧ kv.2 < md := by
  intro ts
  induction ts with
  | nil => intro acc _ hacc kv h; exact hacc kv h
  | cons kv₀ ts ih =>
    intro acc hts hacc kv h
    rw [List.foldl_cons] at h
    refine ih _ (fun kv₁ h₁ => hts kv₁ (List.mem_cons_of_mem _ h₁)) ?_ kv h
    refine coeffs_upsertAddMod hmd hacc ?_
    exact peTerm_coeff_range hmd kv₀.1 0 kv₀.2 (hts kv₀ (List.mem_cons_self _ _)).1
      (hts kv₀ (List.mem_cons_self _ _)).2

theorem pe_fold_nil_iff (em : List (Nat × Int)) (md : Int) :
    ∀ ts acc : List (List Nat × Int),
      (ts.foldl (fun acc kv =>
          upsertAddMod acc (peTerm em md kv.1 0 kv.2).2 (peTerm em md kv.1 0 kv.2).1 md) acc) = []
        ↔ (acc = [] ∧ ts = []) := by
  intro ts
  induction ts with
  | nil => intro acc; simp
  | cons kv ts ih =>
    intro acc
    rw [List.foldl_cons, ih]
    simp [upsertAddMod_ne_nil]

/-! ## The main bundle for `partial_eval` -/

/-- Everything a caller needs about a successful partial evaluation with
in-range indices: it cannot panic, the variable count drops by the number
of distinct assigned indices, well-formedness is preserved, term
emptiness is preserved, every reduced key comes from an original key, and
the evaluation at any point factors through `slots`. -/
theorem partial_eval_bundle (p : MultiVarPolynomial) (vs : List (Nat × Int))
    (hWF : WF p) (hrange : ∀ kv ∈ vs, (kv : Nat × Int).1 < p.num_vars) :
    ∃ q, p.partial_eval vs = some q ∧
      q.num_vars = p.num_vars - (toEvalMap vs).length ∧
      q.modulus = p.modulus ∧
      WF q ∧
      (q.terms = [] ↔ p.terms = []) ∧
      (∀ kv ∈ q.terms, ∃ kv₀ ∈ p.terms,
        (kv : List Nat × Int).1 = (peTerm (toEvalMap vs) p.modulus kv₀.1 0 kv₀.2).2) ∧
      (∀ xs : List Int, xs.length = q.num_vars →
        polyEval q xs ≡ polyEval p (slots (toEvalMap vs) 0 p.num_vars xs) [ZMOD p.modulus]) := by
  obtain ⟨hmd, hkeys, hcoeffs, hnd⟩ := hWF
  have hemrange : ∀ j ∈ (toEvalMap vs).map Prod.fst, j < p.num_vars := by
    intro j hj
    rcases List.mem_map.mp (keys_toEvalMap_origin hj) with ⟨kv, hkv, hfst⟩
    exact hfst ▸ hrange kv hkv
  have hemnd : ((toEvalMap vs).map Prod.fst).Nodup := nodup_keys_toEvalMap vs
  have hfc : freeCount (toEvalMap vs) 0 p.num_vars = p.num_vars - (toEvalMap vs).length :=
    freeCount_of_nodup hemnd hemrange
  have hemlen : (toEvalMap vs).length ≤ p.num_vars := by
    have h1 := freeCount_add_countP (toEvalMap vs) p.num_vars 0
    rw [countP_lookup_of_nodup hemnd hemrange] at h1
    omega
  refine ⟨⟨p.terms.foldl (fun acc kv =>
      upsertAddMod acc (peTerm (toEvalMap vs) p.modulus kv.1 0 kv.2).2
        (peTerm (toEvalMap vs) p.modulus kv.1 0 kv.2).1 p.modulus) [],
    p.num_vars - (toEvalMap vs).length, p.modulus⟩, ?_, rfl, rfl, ?_, ?_, ?_, ?_⟩
  · have hcond : ¬p.num_vars < (toEvalMap vs).length := by omega
    rw [MultiVarPolynomial.partial_eval, if_neg hcond]
  · refine ⟨hmd, ?_, ?_, ?_⟩
    · intro kv hkv
      rcases pe_fold_mem _ _ p.terms [] kv hkv with h | ⟨kv₀, hkv₀, hk⟩
      · cases h
      · rw [hk, peTerm_keylen, hkeys kv₀ hkv₀, hfc]
    · exact fun kv hkv => pe_fold_coeffs hmd p.terms [] hcoeffs (by simp) kv hkv
    · exact pe_fold_nodup _ _ p.terms [] (by simp)
  · rw [pe_fold_nil_iff]
    simp
  · intro kv hkv
    rcases pe_fold_mem _ _ p.terms [] kv hkv with h | h
    · cases h
    · exact h
  · intro xs hxs
    have h1 := pe_fold_sem (toEvalMap vs) p.modulus xs p.terms []
    rw [polyEvalAux_nil, zero_add] at h1
    refine h1.trans ?_
    refine sum_modeq _ _ p.terms ?_
    intro kv hkv
    have hlen : freeCount (toEvalMap vs) 0 kv.1.length ≤ xs.length := by
      rw [hkeys kv hkv, hfc, hxs]
    have hterm := @peTerm_modeq (toEvalMap vs) p.modulus kv.1 0 kv.2 xs hlen
    rw [hkeys kv hkv] at hterm
    exact hterm

/-! ## Bundles for `add_term`, `add`, `bool_sum` -/

/-- A successful `add_term` with matching arity: structure, invariants
and its effect on the evaluation. -/
theorem add_term_bundle (p : MultiVarPolynomial) (k : List Nat) (c : Int)
    (hWF : WF p) (hk : k.length = p.num_vars) :
    ∃ q, p.add_term k c = some q ∧ q.num_vars = p.num_vars ∧ q.modulus = p.modulus ∧
      WF q ∧ q.terms ≠ [] ∧
      (∀ kv ∈ q.terms, kv ∈ p.terms ∨ (kv : List Nat × Int).1 = k) ∧
      ∀ xs : List Int, polyEval q xs ≡ polyEval p xs + c * monoEval xs k [ZMOD p.modulus] := by
  obtain ⟨hmd, hkeys, hcoeffs, hnd⟩ := hWF
  refine ⟨⟨upsertAddMod p.terms k (c % p.modulus) p.modulus, p.num_vars, p.modulus⟩,
    ?_, rfl, rfl, ?_, ?_, ?_, ?_⟩
  · rw [MultiVarPolynomial.add_term, if_neg (by omega)]
  · refine ⟨hmd, ?_, ?_, ?_⟩
    · exact keylens_upsertAddMod hkeys hk
    · exact coeffs_upsertAddMod hmd hcoeffs
        ⟨Int.emod_nonneg _ (ne_of_gt hmd), Int.emod_lt_of_pos _ hmd⟩
    · exact nodup_keys_upsertAddMod hnd
  · exact upsertAddMod_ne_nil k _ _ p.terms
  · intro kv hkv
    rcases mem_upsertAddMod kv hkv with h | ⟨h, _⟩
    · exact Or.inl h
    · exact Or.inr h
  · intro xs
    refine (polyEvalAux_upsertAddMod k (c % p.modulus) xs p.terms).trans ?_
    exact Int.ModEq.add_left _ (Int.ModEq.mul_right _ (emod_modeq c p.modulus))

/-- The fold inside `impl Add`: feeding a term list into `add_term`
one entry at a time. -/
theorem add_fold_bundle :
    ∀ (ts : List (List Nat × Int)) (a : MultiVarPolynomial), WF a →
      (∀ kv ∈ ts, (kv : List Nat × Int).1.length = a.num_vars) →
      ∃ s, ts.foldl (fun acc kv => acc.bind fun q => q.add_term kv.1 kv.2) (some a) = some s ∧
        s.num_vars = a.num_vars ∧ s.modulus = a.modulus ∧ WF s ∧
        (s.terms = [] ↔ (a.terms = [] ∧ ts = [])) ∧
        (∀ kv ∈ s.terms, (kv : List Nat × Int).1 ∈ a.terms.map Prod.fst ∨
          kv.1 ∈ ts.map Prod.fst) ∧
        ∀ xs : List Int, polyEval s xs ≡ polyEval a xs + polyEvalAux ts xs [ZMOD a.modulus] := by
  intro ts
  induction ts with
  | nil =>
    intro a hWF _
    exact ⟨a, rfl, rfl, rfl, hWF, by simp, fun kv hkv => Or.inl (List.mem_map.mpr ⟨kv, hkv, rfl⟩),
      fun xs => by simp⟩
  | cons kv₀ ts ih =>
    intro a hWF hts
    obtain ⟨q, hq, hnv, hmod, hWFq, hne, hmem, hsem⟩ :=
      add_term_bundle a kv₀.1 kv₀.2 hWF (hts kv₀ (List.mem_cons_self _ _))
    obtain ⟨s, hs, hnv', hmod', hWFs, hnil', hmem', hsem'⟩ := ih q hWFq
      (fun kv hkv => (hnv ▸ hts kv (List.mem_cons_of_mem _ hkv)))
    refine ⟨s, ?_, hnv ▸ hnv', hmod ▸ hmod', hWFs, ?_, ?_, ?_⟩
    · rw [List.foldl_cons]
      simpa [hq] using hs
    · rw [hnil']
      simp [hne]
    · intro kv hkv
      rcases hmem' kv hkv with h | h
      · rcases List.mem_map.mp h with ⟨kv₁, hkv₁, hfst⟩
        rcases hmem kv₁ hkv₁ with h' | h'
        · exact Or.inl (List.mem_map.mpr ⟨kv₁, h', hfst⟩)
        · exact Or.inr (by simp [← hfst, h'])
      · exact Or.inr (by simp [h])
    · intro xs
      have hsem2 := hsem' xs
      rw [hmod] at hsem2
      refine hsem2.trans ?_
      rw [polyEvalAux_cons]
      calc polyEval q xs + polyEvalAux ts xs
          ≡ polyEval a xs + kv₀.2 * monoEval xs kv₀.1 + polyEvalAux ts xs [ZMOD a.modulus] :=
            Int.ModEq.add_right _ (hsem xs)
        _ = polyEval a xs + (kv₀.2 * monoEval xs kv₀.1 + polyEvalAux ts xs) := by ring

/-- A successful polynomial addition: compatibility checks pass,
invariants are preserved, evaluations add. -/
theorem add_bundle (a b : MultiVarPolynomial) (hWFa : WF a) (hWFb : WF b)
    (hnv : a.num_vars = b.num_vars) (hmod : a.modulus = b.modulus) :
    ∃ s, a.add b = some s ∧ s.num_vars = a.num_vars ∧ s.modulus = a.modulus ∧ WF s ∧
      (s.terms = [] ↔ (a.terms = [] ∧ b.terms = [])) ∧
      (∀ kv ∈ s.terms, (kv : List Nat × Int).1 ∈ a.terms.map Prod.fst ∨
        kv.1 ∈ b.terms.map Prod.fst) ∧
      ∀ xs : List Int, polyEval s xs ≡ polyEval a xs + polyEval b xs [ZMOD a.modulus] := by
  obtain ⟨s, hs, hnv', hmod', hWFs, hnil, hmem, hsem⟩ := add_fold_bundle b.terms a hWFa
    (fun kv hkv => hnv ▸ hWFb.2.1 kv hkv)
  refine ⟨s, ?_, hnv', hmod', hWFs, ?_, hmem, hsem⟩
  · rw [MultiVarPolynomial.add, if_neg (by omega), if_neg (by simp [hmod])]
    exact hs
  · exact hnil

/-- A successful `bool_sum` on at least one variable: the two partial
evaluations and the addition all succeed, one variable disappears,
invariants and emptiness are preserved, the head exponent bound survives
when at least two variables remain, and the evaluation is the sum of the
evaluations at last variable 0 and 1. -/
theorem bool_sum_bundle (p : MultiVarPolynomial) (hWF : WF p) (h1 : 1 ≤ p.num_vars) :
    ∃ a b q, p.partial_eval [(p.num_vars - 1, 0)] = some a ∧
      p.partial_eval [(p.num_vars - 1, 1)] = some b ∧
      a.add b = some q ∧ p.bool_sum = some q ∧
      q.num_vars = p.num_vars - 1 ∧ q.modulus = p.modulus ∧ WF q ∧
      (q.terms = [] ↔ p.terms = []) ∧
      (2 ≤ p.num_vars → ∀ d : Nat, (∀ kv ∈ p.terms, (kv : List Nat × Int).1.headD 0 ≤ d) →
        ∀ kv ∈ q.terms, (kv : List Nat × Int).1.headD 0 ≤ d) ∧
      ∀ xs : List Int, xs.length = p.num_vars - 1 →
        polyEval q xs ≡ polyEval p (xs ++ [0]) + polyEval p (xs ++ [1]) [ZMOD p.modulus] := by
  have hrange : ∀ v : Int, ∀ kv ∈ [(p.num_vars - 1, v)], (kv : Nat × Int).1 < p.num_vars := by
    intro v kv hkv
    rw [List.mem_singleton] at hkv
    subst hkv
    omega
  have hem : ∀ v : Int, toEvalMap [(p.num_vars - 1, v)] = [(p.num_vars - 1, v)] := fun v => rfl
  have hlook : ∀ v : Int, ∀ i, lookupNat [(p.num_vars - 1, v)] i =
      if i = p.num_vars - 1 then some v else none := by
    intro v i
    by_cases h : p.num_vars - 1 = i
    · simp [lookupNat, h]
    · have h' : ¬i = p.num_vars - 1 := fun hc => h hc.symm
      simp [lookupNat, h, h']
  have hslots : ∀ (v : Int) (xs : List Int), xs.length = p.num_vars - 1 →
      slots [(p.num_vars - 1, v)] 0 p.num_vars xs = xs ++ [v] := by
    intro v xs hxs
    have h := slots_lastvar (hlook v) (p.num_vars - 1) 0 xs (by omega) (by omega)
    rw [(by omega : p.num_vars - 1 + 1 = p.num_vars)] at h
    have htake : xs.take (p.num_vars - 1) = xs := by
      rw [← hxs, List.take_length]
    rw [htake] at h
    exact h
  obtain ⟨a, ha, hanv, hamod, hWFa, hanil, _, hasem⟩ :=
    partial_eval_bundle p [(p.num_vars - 1, 0)] hWF (hrange 0)
  obtain ⟨b, hb, hbnv, hbmod, hWFb, hbnil, _, hbsem⟩ :=
    partial_eval_bundle p [(p.num_vars - 1, 1)] hWF (hrange 1)
  obtain ⟨q, hq, hqnv, hqmod, hWFq, hqnil, hqmem, hqsem⟩ := add_bundle a b hWFa hWFb
    (by rw [hanv, hbnv]; rfl) (by rw [hamod, hbmod])
  have hlen1 : (toEvalMap [(p.num_vars - 1, (0 : Int))]).length = 1 := rfl
  have hlen1' : (toEvalMap [(p.num_vars - 1, (1 : Int))]).length = 1 := rfl
  refine ⟨a, b, q, ha, hb, hq, ?_, ?_, ?_, hWFq, ?_, ?_, ?_⟩
  · rw [MultiVarPolynomial.bool_sum, if_neg (by omega), ha, hb]
    exact hq
  · rw [hqnv, hanv, hlen1]
  · rw [hqmod, hamod]
  · rw [hqnil, hanil, hbnil]
    simp
  · intro h2 d hd kv hkv
    have keyfrom : ∀ (v : Int) (r : MultiVarPolynomial),
        p.partial_eval [(p.num_vars - 1, v)] = some r →
        ∀ k ∈ r.terms.map Prod.fst, (k : List Nat).headD 0 ≤ d := by
      intro v r hr k hk
      obtain ⟨r', hr', _, _, _, _, hmemr, _⟩ :=
        partial_eval_bundle p [(p.num_vars - 1, v)] hWF (hrange v)
      rw [hr] at hr'
      cases hr'
      rcases List.mem_map.mp hk with ⟨kv₁, hkv₁, hfst⟩
      rcases hmemr kv₁ hkv₁ with ⟨kv₀, hkv₀, hkey⟩
      have hlenk : kv₀.1.length = p.num_vars := hWF.2.1 kv₀ hkv₀
      cases he : kv₀.1 with
      | nil => rw [he] at hlenk; simp at hlenk; omega
      | cons e0 erest =>
        have hl0 : lookupNat (toEvalMap [(p.num_vars - 1, v)]) 0 = none := by
          rw [hem v, hlook v 0, if_neg (by omega)]
        rw [← hfst, hkey, he, peTerm_headD hl0]
        have := hd kv₀ hkv₀
        rw [he] at this
        simpa using this
    rcases hqmem kv hkv with h | h
    · exact keyfrom 0 a ha kv.1 h
    · exact keyfrom 1 b hb kv.1 h
  · intro xs hxs
    have hsem := hqsem xs
    rw [hamod] at hsem
    refine hsem.trans (Int.ModEq.add ?_ ?_)
    · have h := hasem xs (by rw [hanv, hlen1]; omega)
      rw [hem 0, hslots 0 xs hxs] at h
      exact h
    · have h := hbsem xs (by rw [hbnv, hlen1']; omega)
      rw [hem 1, hslots 1 xs hxs] at h
      exact h

/-! ## The boolean cube and iterated `bool_sum` -/

theorem cube_mem_length : ∀ (t : Nat), ∀ bs ∈ cube t, (bs : List Int).length = t := by
  intro t
  induction t with
  | zero =>
    intro bs h
    rw [cube, List.mem_singleton] at h
    simp [h]
  | succ t ih =>
    intro bs h
    rw [cube, List.mem_flatMap] at h
    rcases h with ⟨bs₀, hbs₀, hmem⟩
    rcases List.mem_cons.mp hmem with rfl | hmem
    · simp [ih bs₀ hbs₀]
    · rw [List.mem_singleton] at hmem
      subst hmem
      simp [ih bs₀ hbs₀]

theorem sum_flatMap_pair (f : List Int → Int) :
    ∀ L : List (List Int),
      ((L.flatMap fun bs => [bs ++ [0], bs ++ [1]]).map f).sum =
        (L.map fun bs => f (bs ++ [0]) + f (bs ++ [1])).sum := by
  intro L
  induction L with
  | nil => simp
  | cons a L ih => simp [ih]; ring

theorem cube_sum_succ (t : Nat) (f : List Int → Int) :
    ((cube (t + 1)).map f).sum = ((cube t).map fun bs => f (bs ++ [0]) + f (bs ++ [1])).sum := by
  rw [cube]
  exact sum_flatMap_pair f (cube t)

/-- Splitting the boolean cube on its first coordinate. -/
theorem cube_sum_front : ∀ (t : Nat) (f : List Int → Int),
    ((cube (t + 1)).map f).sum =
      ((cube t).map fun bs => f (0 :: bs)).sum + ((cube t).map fun bs => f (1 :: bs)).sum := by
  intro t
  induction t with
  | zero => intro f; simp [cube]
  | succ t ih =>
    intro f
    rw [cube_sum_succ (t + 1) f, ih fun bs => f (bs ++ [0]) + f (bs ++ [1]),
      cube_sum_succ t fun bs => f (0 :: bs), cube_sum_succ t fun bs => f (1 :: bs)]
    simp

theorem boolSumIter_stop {p : MultiVarPolynomial} {target : Nat}
    (h : ¬target < p.num_vars) : ∀ fuel, boolSumIter fuel p target = some p := by
  intro fuel
  cases fuel with
  | zero => simp [boolSumIter, h]
  | succ f => simp [boolSumIter, h]

/-- Iterating `bool_sum` `t` times: always succeeds on a well-formed
polynomial with enough fuel, reaches the target variable count, and
computes the sum of the evaluations over the `t`-dimensional boolean
cube glued onto the tail of the point. -/
theorem boolSumIter_bundle :
    ∀ (t : Nat) (p : MultiVarPolynomial) (fuel target : Nat), WF p →
      p.num_vars = target + t → t ≤ fuel →
      ∃ s, boolSumIter fuel p target = some s ∧ s.num_vars = target ∧
        s.modulus = p.modulus ∧ WF s ∧ (s.terms = [] ↔ p.terms = []) ∧
        (1 ≤ target → ∀ d : Nat, (∀ kv ∈ p.terms, (kv : List Nat × Int).1.headD 0 ≤ d) →
          ∀ kv ∈ s.terms, (kv : List Nat × Int).1.headD 0 ≤ d) ∧
        ∀ xs : List Int, xs.length = target →
          polyEval s xs ≡ ((cube t).map fun bs => polyEval p (xs ++ bs)).sum
            [ZMOD p.modulus] := by
  intro t
  induction t with
  | zero =>
    intro p fuel target hWF hnv _
    refine ⟨p, boolSumIter_stop (by omega) fuel, by omega, rfl, hWF, Iff.rfl,
      fun _ d hd => hd, ?_⟩
    intro xs _
    simp [cube]
  | succ t ih =>
    intro p fuel target hWF hnv hfuel
    cases fuel with
    | zero => omega
    | succ f =>
      obtain ⟨a, b, q, _, _, _, hbs, hqnv, hqmod, hWFq, hqnil, hqhead, hqsem⟩ :=
        bool_sum_bundle p hWF (by omega)
      obtain ⟨s, hs, hsnv, hsmod, hWFs, hsnil, hshead, hssem⟩ :=
        ih q f target hWFq (by omega) (by omega)
      refine ⟨s, ?_, hsnv, by rw [hsmod, hqmod], hWFs, by rw [hsnil, hqnil], ?_, ?_⟩
      · rw [boolSumIter, if_pos (by omega), hbs]
        exact hs
      · intro htarget d hd
        exact hshead htarget d (hqhead (by omega) d hd)
      · intro xs hxs
        have h1 := hssem xs hxs
        rw [hqmod] at h1
        refine h1.trans ?_
        have h2 : ((cube t).map fun bs => polyEval q (xs ++ bs)).sum ≡
            ((cube t).map fun bs =>
              polyEval p ((xs ++ bs) ++ [0]) + polyEval p ((xs ++ bs) ++ [1])).sum
            [ZMOD p.modulus] := by
          refine sum_modeq _ _ (cube t) ?_
          intro bs hbs'
          have hlen : (xs ++ bs).length = p.num_vars - 1 := by
            rw [List.length_append, hxs, cube_mem_length t bs hbs']
            omega
          exact hqsem (xs ++ bs) hlen
        refine h2.trans ?_
        rw [cube_sum_succ t fun bs => polyEval p (xs ++ bs)]
        have h3 : ∀ bs : List Int, ∀ v : Int, (xs ++ bs) ++ [v] = xs ++ (bs ++ [v]) :=
          fun bs v => List.append_assoc xs bs [v]
        refine Int.ModEq.symm ?_
        apply sum_modeq
        intro bs _
        rw [h3 bs 0, h3 bs 1]

theorem headD_drop : ∀ (l : List Nat) (n : Nat), ((l.drop n).headD 0) = l.getD n 0 := by
  intro l
  induction l with
  | nil => intro n; simp
  | cons a l ih =>
    intro n
    cases n with
    | zero => simp
    | succ n => simp only [List.drop_succ_cons, List.getD_cons_succ]; exact ih n

theorem headD_eq_getD_zero (l : List Nat) : l.headD 0 = l.getD 0 0 := by
  cases l <;> simp

theorem chalAsn_eq_nil_iff (rand : Nat → Int) (k : Nat) : chalAsn rand k = [] ↔ k = 0 := by
  cases k with
  | zero => simp
  | succ k => simp [chalAsn_snoc]

/-- The honest prover computation `compute_g_j` at the first `k`
challenges, reduced to `target` free variables: it succeeds, is
well-formed and univariate (for `target = 1`), its exponents in the
surviving first variable are bounded by the original degree in variable
`k`, and it evaluates to the boolean-cube sum of the original polynomial
behind the fixed challenges. -/
theorem compute_g_j_bundle (poly : MultiVarPolynomial) (hWF : WF poly) (rand : Nat → Int)
    (k target : Nat) (hkt : k + target ≤ poly.num_vars) :
    ∃ g, compute_g_j poly target (chalAsn rand k) = some g ∧ g.num_vars = target ∧
      g.modulus = poly.modulus ∧ WF g ∧ (g.terms = [] ↔ poly.terms = []) ∧
      (1 ≤ target → ∀ kv ∈ g.terms, (kv : List Nat × Int).1.headD 0 ≤
        maxOr0 (poly.terms.map fun kv₀ => kv₀.1.getD k 0)) ∧
      ∀ xs : List Int, xs.length = target →
        polyEval g xs ≡ ((cube (poly.num_vars - k - target)).map fun bs =>
          polyEval poly (chalVals rand k ++ xs ++ bs)).sum [ZMOD poly.modulus] := by
  have hq0 : ∃ q0, (if chalAsn rand k = [] then some poly
        else poly.partial_eval (chalAsn rand k)) = some q0 ∧
      q0.num_vars = poly.num_vars - k ∧ q0.modulus = poly.modulus ∧ WF q0 ∧
      (q0.terms = [] ↔ poly.terms = []) ∧
      (∀ kv ∈ q0.terms, (kv : List Nat × Int).1.headD 0 ≤
        maxOr0 (poly.terms.map fun kv₀ => kv₀.1.getD k 0)) ∧
      ∀ ys : List Int, ys.length = poly.num_vars - k →
        polyEval q0 ys ≡ polyEval poly (chalVals rand k ++ ys) [ZMOD poly.modulus] := by
    by_cases hk0 : k = 0
    · subst hk0
      refine ⟨poly, by simp, by omega, rfl, hWF, Iff.rfl, ?_, ?_⟩
      · intro kv hkv
        rw [headD_eq_getD_zero]
        exact le_maxOr0 (List.mem_map.mpr ⟨kv, hkv, rfl⟩)
      · intro ys hys
        simp [chalVals]
    · have hne : ¬chalAsn rand k = [] := by
        rw [chalAsn_eq_nil_iff]
        exact hk0
      rw [if_neg hne]
      have hrange : ∀ kv ∈ chalAsn rand k, (kv : Nat × Int).1 < poly.num_vars := by
        intro kv hkv
        have : kv.1 ∈ (chalAsn rand k).map Prod.fst := List.mem_map.mpr ⟨kv, hkv, rfl⟩
        rw [chalAsn_keys, List.mem_range] at this
        omega
      obtain ⟨q0, hq0, hnv, hmod, hWF0, hnil0, hmem0, hsem0⟩ :=
        partial_eval_bundle poly (chalAsn rand k) hWF hrange
      have hemlen : (toEvalMap (chalAsn rand k)).length = k := by
        rw [toEvalMap_chalAsn, chalAsn_length]
      have hlook : ∀ i, (lookupNat (toEvalMap (chalAsn rand k)) i).isSome = true ↔ i < k := by
        intro i
        rw [toEvalMap_chalAsn, lookupNat_chalAsn]
        by_cases h : i < k <;> simp [h]
      refine ⟨q0, hq0, by omega, hmod, hWF0, hnil0, ?_, ?_⟩
      · intro kv hkv
        rcases hmem0 kv hkv with ⟨kv₀, hkv₀, hkey⟩
        rw [hkey, peTerm_drop hlook, Nat.sub_zero, headD_drop]
        exact le_maxOr0 (List.mem_map.mpr ⟨kv₀, hkv₀, rfl⟩)
      · intro ys hys
        have h := hsem0 ys (by omega)
        rw [toEvalMap_chalAsn] at h
        have hslots : slots (chalAsn rand k) 0 poly.num_vars ys =
            chalVals rand k ++ ys := by
          have hsc := slots_chal (lookupNat_chalAsn rand k) poly.num_vars 0 ys
            (by omega) (by omega) (by omega)
          rw [Nat.sub_zero] at hsc
          have htake : ys.take (poly.num_vars - k) = ys := by
            rw [← hys, List.take_length]
          rw [htake] at hsc
          rw [hsc, ← List.range_eq_range']
          rfl
        rw [hslots] at h
        exact h
  obtain ⟨q0, hq0, hnv0, hmod0, hWF0, hnil0, hhead0, hsem0⟩ := hq0
  obtain ⟨g, hg, hgnv, hgmod, hWFg, hgnil, hghead, hgsem⟩ :=
    boolSumIter_bundle (poly.num_vars - k - target) q0 q0.num_vars target hWF0
      (by omega) (by omega)
  refine ⟨g, ?_, hgnv, by rw [hgmod, hmod0], hWFg, by rw [hgnil, hnil0], ?_, ?_⟩
  · rw [compute_g_j, hq0]
    exact hg
  · intro htarget kv hkv
    exact hghead htarget _ hhead0 kv hkv
  · intro xs hxs
    have h1 := hgsem xs hxs
    rw [hmod0] at h1
    refine h1.trans ?_
    apply sum_modeq
    intro bs hbs
    have hlen : (xs ++ bs).length = poly.num_vars - k := by
      rw [List.length_append, hxs, cube_mem_length _ bs hbs]
      omega
    have h2 := hsem0 (xs ++ bs) hlen
    rw [List.append_assoc]
    exact h2

/-! ## Zero-variable polynomials and the protocol's equality checks -/

theorem zero_var_form {q : MultiVarPolynomial} (hWF : WF q) (h0 : q.num_vars = 0) :
    q.terms = [] ∨ ∃ v, q.terms = [([], v)] ∧ 0 ≤ v ∧ v < q.modulus := by
  obtain ⟨_, hkeys, hcoeffs, hnd⟩ := hWF
  cases hts : q.terms with
  | nil => exact Or.inl rfl
  | cons kv rest =>
    have hk1 : kv.1 = [] := by
      have h := hkeys kv (by rw [hts]; exact List.mem_cons_self _ _)
      rw [h0] at h
      exact List.length_eq_zero.mp h
    cases rest with
    | nil =>
      refine Or.inr ⟨kv.2, ?_, ?_⟩
      · rw [← hk1]
      · exact hcoeffs kv (by rw [hts]; exact List.mem_cons_self _ _)
    | cons kv₂ rest₂ =>
      exfalso
      have hk2 : kv₂.1 = [] := by
        have h := hkeys kv₂ (by rw [hts]; simp)
        rw [h0] at h
        exact List.length_eq_zero.mp h
      have hnd' := hnd
      rw [hts] at hnd'
      simp only [List.map_cons, List.nodup_cons, List.mem_cons] at hnd'
      exact hnd'.1 (Or.inl (hk1.trans hk2.symm))

@[simp] theorem polyEval_single_zero_var (v : Int) (nv : Nat) (md : Int) :
    polyEval ⟨[([], v)], nv, md⟩ [] = v := by
  simp [polyEval, polyEvalAux]

/-- Two well-formed zero-variable polynomials over the same modulus with
the same emptiness and congruent values are equal under the derived
`PartialEq`. -/
theorem polyEqB_of_zero_var {a b : MultiVarPolynomial} (hWFa : WF a) (hWFb : WF b)
    (h0a : a.num_vars = 0) (h0b : b.num_vars = 0) (hmod : a.modulus = b.modulus)
    (hnil : a.terms = [] ↔ b.terms = [])
    (hsem : polyEval a [] ≡ polyEval b [] [ZMOD a.modulus]) : polyEqB a b = true := by
  have hnveq : (a.num_vars == b.num_vars) = true := by
    rw [h0a, h0b]
    rfl
  have hmodeq : (a.modulus == b.modulus) = true := by
    rw [hmod]
    exact beq_self_eq_true _
  rcases zero_var_form hWFa h0a with ha | ⟨va, ha, hva0, hva1⟩
  · have hb : b.terms = [] := hnil.mp ha
    rw [polyEqB, termsEqB, ha, hb, hnveq, hmodeq]
    rfl
  · rcases zero_var_form hWFb h0b with hb | ⟨vb, hb, hvb0, hvb1⟩
    · exfalso
      have h := hnil.mpr hb
      rw [ha] at h
      exact List.cons_ne_nil _ _ h
    · have hva : polyEval a [] = va := by
        rw [polyEval, ha]
        simp [polyEvalAux]
      have hvb : polyEval b [] = vb := by
        rw [polyEval, hb]
        simp [polyEvalAux]
      have hmd : 0 < a.modulus := hWFa.1
      have hvab : va = vb := by
        have h1 : va % a.modulus = vb % a.modulus := by
          rw [← hva, ← hvb]
          exact hsem
        have h2 : vb < a.modulus := by
          rw [hmod]
          exact hvb1
        rw [Int.emod_eq_of_lt hva0 hva1, Int.emod_eq_of_lt hvb0 h2] at h1
        exact h1
      rw [polyEqB, termsEqB, ha, hb, hvab, hnveq, hmodeq]
      simp [lookupKey]

@[simp] theorem lookupNat_nil (k : Nat) : lookupNat [] k = none := rfl

/-- Partial evaluation at the empty assignment list: the identity up to
the map representation. -/
theorem pe_nil_bundle (p : MultiVarPolynomial) (hWF : WF p) :
    ∃ z, p.partial_eval [] = some z ∧ z.num_vars = p.num_vars ∧ z.modulus = p.modulus ∧
      WF z ∧ (z.terms = [] ↔ p.terms = []) ∧
      ∀ xs : List Int, xs.length = p.num_vars → polyEval z xs ≡ polyEval p xs
        [ZMOD p.modulus] := by
  obtain ⟨z, hz, hnv, hmod, hWFz, hnil, _, hsem⟩ := partial_eval_bundle p [] hWF (by simp)
  have hlen0 : (toEvalMap ([] : List (Nat × Int))).length = 0 := rfl
  refine ⟨z, hz, by omega, hmod, hWFz, hnil, ?_⟩
  intro xs hxs
  have h := hsem xs (by omega)
  have hslots : slots (toEvalMap ([] : List (Nat × Int))) 0 p.num_vars xs = xs := by
    have h1 : slots ([] : List (Nat × Int)) 0 p.num_vars xs = xs.take p.num_vars :=
      slots_all_none p.num_vars 0 xs (fun i _ _ => rfl) (by omega)
    have h2 : xs.take p.num_vars = xs := by
      rw [← hxs, List.take_length]
    exact (h1.trans h2 : _)
  rw [hslots] at h
  exact h

/-- Partial evaluation of a univariate polynomial at its only variable:
a zero-variable polynomial holding the value. -/
theorem pe_univar_bundle (g : MultiVarPolynomial) (hWF : WF g) (h1 : g.num_vars = 1)
    (r : Int) :
    ∃ z, g.partial_eval [(0, r)] = some z ∧ z.num_vars = 0 ∧ z.modulus = g.modulus ∧
      WF z ∧ (z.terms = [] ↔ g.terms = []) ∧
      polyEval z [] ≡ polyEval g [r] [ZMOD g.modulus] := by
  obtain ⟨z, hz, hnv, hmod, hWFz, hnil, _, hsem⟩ := partial_eval_bundle g [(0, r)] hWF
    (by intro kv hkv; rw [List.mem_singleton] at hkv; subst hkv; omega)
  have hlen1 : (toEvalMap [((0 : Nat), r)]).length = 1 := rfl
  have hnv0 : z.num_vars = 0 := by omega
  refine ⟨z, hz, hnv0, hmod, hWFz, hnil, ?_⟩
  have h := hsem [] (by simp [hnv0])
  have hslots : slots (toEvalMap [((0 : Nat), r)]) 0 g.num_vars [] = [r] := by
    rw [h1]
    rfl
  rw [hslots] at h
  exact h

/-- Partial evaluation at a full ordered challenge list: a zero-variable
polynomial holding the evaluation at the challenge point. -/
theorem pe_full_chal_bundle (poly : MultiVarPolynomial) (hWF : WF poly) (rand : Nat → Int)
    (hn : 1 ≤ poly.num_vars) :
    ∃ z, poly.partial_eval (chalAsn rand poly.num_vars) = some z ∧ z.num_vars = 0 ∧
      z.modulus = poly.modulus ∧ WF z ∧ (z.terms = [] ↔ poly.terms = []) ∧
      polyEval z [] ≡ polyEval poly (chalVals rand poly.num_vars) [ZMOD poly.modulus] := by
  have hrange : ∀ kv ∈ chalAsn rand poly.num_vars, (kv : Nat × Int).1 < poly.num_vars := by
    intro kv hkv
    have : kv.1 ∈ (chalAsn rand poly.num_vars).map Prod.fst := List.mem_map.mpr ⟨kv, hkv, rfl⟩
    rw [chalAsn_keys, List.mem_range] at this
    exact this
  obtain ⟨z, hz, hnv, hmod, hWFz, hnil, _, hsem⟩ :=
    partial_eval_bundle poly (chalAsn rand poly.num_vars) hWF hrange
  have hemlen : (toEvalMap (chalAsn rand poly.num_vars)).length = poly.num_vars := by
    rw [toEvalMap_chalAsn, chalAsn_length]
  have hnv0 : z.num_vars = 0 := by omega
  refine ⟨z, hz, hnv0, hmod, hWFz, hnil, ?_⟩
  have h := hsem [] (by simp [hnv0])
  have hslots : slots (toEvalMap (chalAsn rand poly.num_vars)) 0 poly.num_vars [] =
      chalVals rand poly.num_vars := by
    rw [toEvalMap_chalAsn]
    have hsc := slots_chal (lookupNat_chalAsn rand poly.num_vars) poly.num_vars 0 []
      (by omega) (by omega) (by omega)
    rw [Nat.sub_zero, Nat.sub_self] at hsc
    rw [hsc, ← List.range_eq_range']
    simp [chalVals]
  rw [hslots] at h
  exact h

/-! ## The honest protocol round -/

/-- One honest round (no overrides): starting from the invariant state —
`g_prev` the previous honest message, `values` the first `j - 2`
challenges, the sample counter at `j - 2` — the round's three checks all
pass and the loop state advances to the honest `g_j` with the first
`j - 1` challenges recorded. -/
theorem protoRound_honest (poly : MultiVarPolynomial) (hWF : WF poly) (rand : Nat → Int)
    (j : Nat) (h1 : 1 ≤ j) (hj : j ≤ poly.num_vars) (g_prev : MultiVarPolynomial)
    (hg_prev : compute_g_j poly (if j = 1 then 0 else 1) (chalAsn rand (j - 2)) = some g_prev) :
    ∃ g, compute_g_j poly 1 (chalAsn rand (j - 1)) = some g ∧
      protoRound poly (fun _ => none) (fun _ => none) rand j
        ⟨g_prev, chalAsn rand (j - 2), j - 2⟩ =
        Except.ok ⟨g, chalAsn rand (j - 1), j - 1⟩ := by
  obtain ⟨g, hg, hgnv, hgmod, hWFg, hgnil, hghead, hgsem⟩ :=
    compute_g_j_bundle poly hWF rand (j - 1) 1 (by omega)
  refine ⟨g, hg, ?_⟩
  have hdg : g.degree_in_var 0 =
      some (maxOr0 (g.terms.map fun kv => kv.1.getD 0 0)) := by
    rw [MultiVarPolynomial.degree_in_var, if_neg (by omega)]
  have hdp : poly.degree_in_var (j - 1) =
      some (maxOr0 (poly.terms.map fun kv => kv.1.getD (j - 1) 0)) := by
    rw [MultiVarPolynomial.degree_in_var, if_neg (by omega)]
  have hdeg : ¬(maxOr0 (poly.terms.map fun kv => kv.1.getD (j - 1) 0) <
      maxOr0 (g.terms.map fun kv => kv.1.getD 0 0)) := by
    rw [not_lt]
    refine maxOr0_le ?_
    intro x hx
    rcases List.mem_map.mp hx with ⟨kv, hkv, hfst⟩
    rw [← hfst, ← headD_eq_getD_zero]
    exact hghead le_rfl kv hkv
  obtain ⟨a0, b0, rhs, _, _, _, hbs, hrnv, hrmod, hWFr, hrnil, _, hrsem⟩ :=
    bool_sum_bundle g hWFg (by omega)
  have hrsem0 := hrsem [] (by simp [hgnv])
  rw [List.nil_append, List.nil_append] at hrsem0
  by_cases hj1 : j = 1
  · subst hj1
    norm_num at hg_prev hgsem hghead hdp hdeg hg
    obtain ⟨gp, hgp, hpnv, hpmod, hWFp, hpnil, _, hpsem⟩ :=
      compute_g_j_bundle poly hWF rand 0 0 (by omega)
    have hgpe : gp = g_prev := by
      rw [chalAsn_zero, hg_prev] at hgp
      exact (Option.some.inj hgp).symm
    subst hgpe
    obtain ⟨lhs, hlhs, hlnv, hlmod, hWFl, hlnil, hlsem⟩ := pe_nil_bundle gp hWFp
    have hpval := hpsem [] (by simp)
    simp only [chalVals_zero, List.nil_append, Nat.sub_zero] at hpval
    have hcheck : polyEqB lhs rhs = true := by
      refine polyEqB_of_zero_var hWFl hWFr (by omega) (by omega)
        (by rw [hlmod, hpmod, hrmod, hgmod]) ?_ ?_
      · rw [hlnil, hpnil, hrnil, hgnil]
      · rw [hlmod, hpmod]
        have hl2 := hlsem [] (by simp [hpnv])
        rw [hpmod] at hl2
        refine (hl2.trans hpval).trans ?_
        rw [show poly.num_vars = (poly.num_vars - 1) + 1 from by omega,
          cube_sum_front (poly.num_vars - 1) fun bs => polyEval poly bs]
        refine Int.ModEq.symm ?_
        have hrsem1 := hrsem0
        rw [hgmod] at hrsem1
        refine hrsem1.trans ?_
        have hg0 := hgsem [0] (by simp)
        have hg1 := hgsem [1] (by simp)
        simp only [chalVals_zero, List.nil_append, List.singleton_append] at hg0 hg1
        exact Int.ModEq.add hg0 hg1
    rw [protoRound]
    norm_num
    simp only [hg, hgnv, hdg, hdp, hbs, hlhs]
    simp [hdeg, hcheck]
  · have h2 : 1 < j := by omega
    rw [if_neg hj1] at hg_prev
    obtain ⟨gp, hgp, hpnv, hpmod, hWFp, hpnil, _, hpsem⟩ :=
      compute_g_j_bundle poly hWF rand (j - 2) 1 (by omega)
    have hgpe : gp = g_prev := by
      rw [hg_prev] at hgp
      exact (Option.some.inj hgp).symm
    subst hgpe
    obtain ⟨lhs, hlhs, hlnv, hlmod, hWFl, hlnil, hlsem⟩ :=
      pe_univar_bundle gp hWFp hpnv (rand (j - 2))
    have hcheck : polyEqB lhs rhs = true := by
      refine polyEqB_of_zero_var hWFl hWFr hlnv (by omega)
        (by rw [hlmod, hpmod, hrmod, hgmod]) ?_ ?_
      · rw [hlnil, hrnil, hgnil, hpnil]
      · rw [hlmod, hpmod]
        have hlsem2 := hlsem
        rw [hpmod] at hlsem2
        refine hlsem2.trans ?_
        have hA := hpsem [rand (j - 2)] (by simp [hpnv])
        simp only [← chalVals_snoc] at hA
        rw [show j - 2 + 1 = j - 1 from by omega,
          show poly.num_vars - (j - 2) - 1 = poly.num_vars - j + 1 from by omega] at hA
        refine hA.trans ?_
        rw [cube_sum_front (poly.num_vars - j)
          fun bs => polyEval poly (chalVals rand (j - 1) ++ bs)]
        have hg0 := hgsem [0] (by simp)
        have hg1 := hgsem [1] (by simp)
        simp only [List.append_assoc, List.singleton_append] at hg0 hg1
        rw [show poly.num_vars - (j - 1) - 1 = poly.num_vars - j from by omega] at hg0 hg1
        refine Int.ModEq.symm ?_
        have hrsem1 := hrsem0
        rw [hgmod] at hrsem1
        refine hrsem1.trans ?_
        exact Int.ModEq.add hg0 hg1
    have hvals : chalAsn rand (j - 2) ++ [(j - 2, rand (j - 2))] = chalAsn rand (j - 1) := by
      rw [← chalAsn_snoc]
      rw [show j - 2 + 1 = j - 1 from by omega]
    have hk21 : j - 2 + 1 = j - 1 := by omega
    rw [protoRound]
    simp only [if_pos h2, hvals, hk21, hg, hgnv, hdg, hdp, hbs, hlhs]
    rw [not_lt] at hdeg
    simp [hcheck]
    simpa using hdeg

/-- The honest round loop: from the round-`j` invariant state it runs to
completion and ends in the state of round `num_vars + 1`, holding the
last honest message and all `num_vars - 1` challenges drawn so far. -/
theorem protoLoop_honest (poly : MultiVarPolynomial) (hWF : WF poly)
    (hn : 1 ≤ poly.num_vars) (rand : Nat → Int) :
    ∀ (left j : Nat) (g_prev : MultiVarPolynomial), 1 ≤ j → j + left = poly.num_vars + 1 →
      compute_g_j poly (if j = 1 then 0 else 1) (chalAsn rand (j - 2)) = some g_prev →
      ∃ g_fin, compute_g_j poly 1 (chalAsn rand (poly.num_vars - 1)) = some g_fin ∧
        protoLoop poly (fun _ => none) (fun _ => none) rand j left
          ⟨g_prev, chalAsn rand (j - 2), j - 2⟩ =
          Except.ok ⟨g_fin, chalAsn rand (poly.num_vars - 1), poly.num_vars - 1⟩ := by
  intro left
  induction left with
  | zero =>
    intro j g_prev h1 hsum hg_prev
    rw [if_neg (by omega)] at hg_prev
    refine ⟨g_prev, ?_, ?_⟩
    · rw [show poly.num_vars - 1 = j - 2 from by omega]
      exact hg_prev
    · simp only [protoLoop]
      rw [show j - 2 = poly.num_vars - 1 from by omega]
  | succ left ih =>
    intro j g_prev h1 hsum hg_prev
    obtain ⟨g, hg, hround⟩ := protoRound_honest poly hWF rand j h1 (by omega) g_prev hg_prev
    have hgshift : compute_g_j poly (if j + 1 = 1 then 0 else 1)
        (chalAsn rand (j + 1 - 2)) = some g := by
      rw [if_neg (by omega), show j + 1 - 2 = j - 1 from by omega]
      exact hg
    obtain ⟨g_fin, hfin, hloop⟩ := ih (j + 1) g (by omega) (by omega) hgshift
    refine ⟨g_fin, hfin, ?_⟩
    simp only [protoLoop]
    rw [hround]
    rw [show j + 1 - 2 = j - 1 from by omega] at hloop
    exact hloop

theorem foldl_addTerm_none :
    ∀ tms : List (List Nat × Int),
      tms.foldl (fun acc kv => acc.bind fun q => q.add_term kv.1 kv.2)
        (none : Option MultiVarPolynomial) = none := by
  intro tms
  induction tms with
  | nil => rfl
  | cons kv tms ih => simpa using ih

theorem add_term_arity {p q : MultiVarPolynomial} {k : List Nat} {c : Int}
    (h : p.add_term k c = some q) : k.length = p.num_vars := by
  by_contra hc
  rw [MultiVarPolynomial.add_term, if_pos hc] at h
  cases h

/-- A successfully parsed polynomial is well-formed and carries the
requested dimensions, with a prime modulus. -/
theorem buildPoly_props {nv : Nat} {m : Int} {tms : List (List Nat × Int)}
    {p : MultiVarPolynomial} (h : buildPoly nv m tms = some p) :
    WF p ∧ p.num_vars = nv ∧ p.modulus = m ∧ is_prime m = true := by
  rw [buildPoly, MultiVarPolynomial.new] at h
  by_cases hm : m ≤ 0 ∨ is_prime m = false
  · rw [if_pos hm] at h
    cases h
  · rw [if_neg hm] at h
    simp only [Option.some_bind] at h
    push_neg at hm
    have hprime : is_prime m = true := by
      rcases hm with ⟨_, h2⟩
      exact Bool.of_not_eq_false h2
    have hfold : ∀ (ts : List (List Nat × Int)) (q : MultiVarPolynomial), WF q →
        ts.foldl (fun acc kv => acc.bind fun r => r.add_term kv.1 kv.2) (some q) = some p →
        WF p ∧ p.num_vars = q.num_vars ∧ p.modulus = q.modulus := by
      intro ts
      induction ts with
      | nil =>
        intro q hWFq hq
        cases hq
        exact ⟨hWFq, rfl, rfl⟩
      | cons kv ts ih =>
        intro q hWFq hq
        rw [List.foldl_cons, Option.some_bind] at hq
        cases hat : q.add_term kv.1 kv.2 with
        | none =>
          rw [hat] at hq
          rw [foldl_addTerm_none] at hq
          cases hq
        | some q' =>
          rw [hat] at hq
          obtain ⟨q'', hq'', hnv, hmod, hWF', _⟩ :=
            add_term_bundle q kv.1 kv.2 hWFq (add_term_arity hat)
          have heq : q' = q'' := by
            rw [hat] at hq''
            exact Option.some.inj hq''
          subst heq
          obtain ⟨hWFp, hnv', hmod'⟩ := ih q' hWF' hq
          exact ⟨hWFp, by omega, by rw [hmod', hmod]⟩
    have hWFbase : WF ⟨[], nv, m⟩ := by
      refine ⟨?_, by simp, by simp, by simp⟩
      show (0 : Int) < m
      have h2 := is_prime_one_lt hprime
      omega
    obtain ⟨hWFp, hnv, hmod⟩ := hfold tms ⟨[], nv, m⟩ hWFbase h
    exact ⟨hWFp, hnv, hmod, hprime⟩

/-- Claim C1 helper: the full honest protocol run accepts. -/
theorem run_protocol_honest_accepts (p : MultiVarPolynomial) (hWF : WF p)
    (hn : 1 ≤ p.num_vars) (rand : Nat → Int) :
    run_protocol p (fun _ => none) (fun _ => none) rand = Except.ok () := by
  obtain ⟨c, hc, hcnv, hcmod, hWFc, hcnil, _, hcsem⟩ :=
    compute_g_j_bundle p hWF rand 0 0 (by omega)
  rw [chalAsn_zero] at hc
  have hc' : compute_g_j p (if 1 = 1 then 0 else 1) (chalAsn rand (1 - 2)) = some c := by
    norm_num
    exact hc
  obtain ⟨g_fin, hfin, hloop⟩ :=
    protoLoop_honest p hWF hn rand p.num_vars 1 c (by omega) (by omega) hc'
  norm_num at hloop
  -- the final message and the final check
  obtain ⟨gp, hgp, hpnv, hpmod, hWFp, hpnil, _, hpsem⟩ :=
    compute_g_j_bundle p hWF rand (p.num_vars - 1) 1 (by omega)
  have hgpe : gp = g_fin := by
    rw [hfin] at hgp
    exact (Option.some.inj hgp).symm
  subst hgpe
  obtain ⟨z, hz, hznv, hzmod, hWFz, hznil, hzsem⟩ := pe_full_chal_bundle p hWF rand hn
  obtain ⟨w, hw, hwnv, hwmod, hWFw, hwnil, hwsem⟩ :=
    pe_univar_bundle gp hWFp hpnv (rand (p.num_vars - 1))
  have hzfull : p.partial_eval
      (chalAsn rand (p.num_vars - 1) ++ [(p.num_vars - 1, rand (p.num_vars - 1))]) = some z := by
    rw [← chalAsn_snoc, show p.num_vars - 1 + 1 = p.num_vars from by omega]
    exact hz
  have hcheck : polyEqB z w = true := by
    refine polyEqB_of_zero_var hWFz hWFw hznv hwnv
      (by rw [hzmod, hwmod, hpmod]) (by rw [hznil, hwnil, hpnil]) ?_
    rw [hzmod]
    refine hzsem.trans ?_
    refine Int.ModEq.symm ?_
    have hwsem2 := hwsem
    rw [hpmod] at hwsem2
    refine hwsem2.trans ?_
    have hA := hpsem [rand (p.num_vars - 1)] (by simp)
    rw [show p.num_vars - (p.num_vars - 1) - 1 = 0 from by omega] at hA
    refine hA.trans ?_
    simp only [cube, List.map_cons, List.map_nil, List.sum_cons, List.sum_nil,
      List.append_nil, add_zero]
    rw [← chalVals_snoc, show p.num_vars - 1 + 1 = p.num_vars from by omega]
  rw [run_protocol, hc]
  simp only [hloop]
  rw [if_neg (by omega)]
  simp only [hzfull, hw]
  rw [if_pos hcheck]

/-- Completeness of the idealized wide-arithmetic model: for every
polynomial built from valid input (`num_vars ≥ 1`, a prime modulus
accepted by `new`, every exponent tuple of matching arity), the protocol
run with no prover and no verifier overrides returns `Accept` (`Ok(())`),
whatever values the challenge stream supplies from `[0, modulus)`.
This is the algorithmic completeness of the sumcheck round structure;
the program itself falls short of it once its `i32` products overflow —
see the bit-exact refutation `honest_run_i32_rejects` below. -/
theorem protocol_completeness (nv : Nat) (m : Int) (tms : List (List Nat × Int))
    (p : MultiVarPolynomial) (hbuild : buildPoly nv m tms = some p) (hnv : 1 ≤ nv)
    (rand : Nat → Int) (hrand : ∀ k, 0 ≤ rand k ∧ rand k < m) :
    run_protocol p (fun _ => none) (fun _ => none) rand = Except.ok () := by
  obtain ⟨hWF, hpnv, _, _⟩ := buildPoly_props hbuild
  exact run_protocol_honest_accepts p hWF (by omega) rand

/-- The idealized completeness at a concrete input: the univariate
polynomial `2x` over `F₅` with the all-zero challenge stream. -/
theorem protocol_completeness_app :
    run_protocol ⟨[([1], 2)], 1, 5⟩ (fun _ => none) (fun _ => none) (fun _ => 0) =
      Except.ok () :=
  protocol_completeness 1 5 [([1], 2)] ⟨[([1], 2)], 1, 5⟩ (by decide) (by decide)
    (fun _ => 0) (fun _ => ⟨le_refl 0, show (0 : Int) < 5 by decide⟩)

/-- C2 counterexample: `partial_eval` does not fail on a duplicated index
(the last pair wins and the call succeeds) and does not fail on an
out-of-range index (the call succeeds, the coefficient is untouched, and
`num_vars` still drops).  Both calls are on the polynomial `x₁` over
`F₅`. -/
theorem partial_eval_no_error_cex :
    MultiVarPolynomial.partial_eval ⟨[([1], 1)], 1, 5⟩ [(0, 2), (0, 3)] =
      some ⟨[([], 3)], 0, 5⟩ ∧
    MultiVarPolynomial.partial_eval ⟨[([1], 1)], 1, 5⟩ [(5, 2)] =
      some ⟨[([1], 1)], 0, 5⟩ := by
  decide

/-- C2 (amended): `partial_eval` validates nothing — it depends on the
assignment list only through the collected map, in which the last pair
for a duplicated index wins, and with pairwise distinct in-range indices
it succeeds with `num_vars` reduced by exactly the number of assigned
indices. -/
theorem partial_eval_contract_amended :
    (∀ (p : MultiVarPolynomial) (vs : List (Nat × Int)),
      p.partial_eval vs = p.partial_eval (toEvalMap vs)) ∧
    ∀ (p : MultiVarPolynomial) (vs : List (Nat × Int)), WF p →
      (vs.map Prod.fst).Nodup → (∀ kv ∈ vs, (kv : Nat × Int).1 < p.num_vars) →
      ∃ q, p.partial_eval vs = some q ∧ q.num_vars = p.num_vars - vs.length := by
  constructor
  · intro p vs
    simp only [MultiVarPolynomial.partial_eval]
    rw [toEvalMap_self (nodup_keys_toEvalMap vs)]
  · intro p vs hWF hnd hrange
    obtain ⟨q, hq, hnv, _, _, _, _⟩ := partial_eval_bundle p vs hWF hrange
    refine ⟨q, hq, ?_⟩
    rw [hnv, toEvalMap_self hnd]

/-- C3: on the 3-variable polynomial `2x₁³ + x₁x₃ + x₂x₃` over `F₉₇`
with the dishonest round-1 message `g₁(X) = 8X³ + 2X`, the override is
univariate and meets the degree bound `3`, yet the engine rejects with a
consistency failure at round 1, whatever the challenge stream holds
(round 1 draws no challenge). -/
theorem prover_override_consistency_reject (rand : Nat → Int) :
    buildPoly 3 97 [([3, 0, 0], 2), ([1, 0, 1], 1), ([0, 1, 1], 1)] = some poly3 ∧
    badG1.num_vars = 1 ∧
    badG1.degree_in_var 0 = some 3 ∧
    poly3.degree_in_var 0 = some 3 ∧
    run_protocol poly3 (fun j => if j = 1 then some badG1 else none) (fun _ => none) rand =
      Except.error (POutcome.reject RejectReason.ConsistencyFailure 1) :=
  ⟨by decide, rfl, by decide, by decide, rfl⟩

/-- C4: the claim that `modular_pow` computes its intermediate products
in a width wide enough to avoid overflow is contradicted by the source's
`i32` arithmetic.  For the prime modulus 46349 (accepted by polynomial
construction) and base 46348, the product `base * base` exceeds
`i32::MAX`, so the bit-exact `i32` model returns 9139 (after wrap-around;
a debug build panics instead) where the mathematical result — and the
idealized wide-arithmetic `modular_pow` — is 1. -/
theorem modular_pow_i32_overflow :
    is_prime 46349 = true ∧
    ¬((46348 : Int) * 46348 ≤ 2 ^ 31 - 1) ∧
    modular_pow32 46348 2 46349 = 9139 ∧
    (46348 : Int) ^ 2 % 46349 = 1 ∧
    modular_pow 46348 2 46349 = 1 := by
  refine ⟨by decide, by decide, by decide, by decide, by decide⟩

/-- C5: on at least one variable, `bool_sum` is exactly the `add` of the
two partial evaluations fixing the last variable to 0 and to 1, and it
removes exactly one variable. -/
theorem bool_sum_spec (p : MultiVarPolynomial) (hWF : WF p) (h1 : 1 ≤ p.num_vars) :
    ∃ a b q, p.partial_eval [(p.num_vars - 1, 0)] = some a ∧
      p.partial_eval [(p.num_vars - 1, 1)] = some b ∧
      a.add b = some q ∧ p.bool_sum = some q ∧ q.num_vars = p.num_vars - 1 := by
  obtain ⟨a, b, q, ha, hb, hab, hbs, hnv, _⟩ := bool_sum_bundle p hWF h1
  exact ⟨a, b, q, ha, hb, hab, hbs, hnv⟩

/-- Witness for C5 on `2x₁ + 3x₂` over `F₅` (the spec's scenario 4). -/
theorem bool_sum_spec_app :
    ∃ a b q,
      MultiVarPolynomial.partial_eval ⟨[([1, 0], 2), ([0, 1], 3)], 2, 5⟩ [(2 - 1, 0)] = some a ∧
      MultiVarPolynomial.partial_eval ⟨[([1, 0], 2), ([0, 1], 3)], 2, 5⟩ [(2 - 1, 1)] = some b ∧
      a.add b = some q ∧
      MultiVarPolynomial.bool_sum ⟨[([1, 0], 2), ([0, 1], 3)], 2, 5⟩ = some q ∧
      q.num_vars = 2 - 1 :=
  bool_sum_spec ⟨[([1, 0], 2), ([0, 1], 3)], 2, 5⟩
    (by refine ⟨by decide, ?_, ?_, by decide⟩ <;> decide) (by decide)

/-- Full-assignment evaluation in the idealized wide-arithmetic model: a
full assignment — pairwise distinct indices covering every variable,
values in the field — collapses the polynomial to zero variables, and
the sole stored coefficient (absent only when the term map was empty) is
the evaluation of the polynomial at that point, reduced mod the modulus.
This is what the source intends; its `i32` products break it past the
overflow threshold — see `partial_eval_i32_wrong_value` below. -/
theorem partial_eval_full_assignment (p : MultiVarPolynomial) (vs : List (Nat × Int))
    (hWF : WF p) (hnd : (vs.map Prod.fst).Nodup)
    (hrange : ∀ kv ∈ vs, (kv : Nat × Int).1 < p.num_vars)
    (hfull : vs.length = p.num_vars)
    (hvals : ∀ kv ∈ vs, 0 ≤ (kv : Nat × Int).2 ∧ kv.2 < p.modulus) :
    ∃ q, p.partial_eval vs = some q ∧ q.num_vars = 0 ∧
      q.terms = if p.terms = [] then []
        else [([], polyEval p (pointOf vs p.num_vars) % p.modulus)] := by
  obtain ⟨q, hq, hnv, hmod, hWFq, hnil, _, hsem⟩ := partial_eval_bundle p vs hWF hrange
  have hemlen : (toEvalMap vs).length = p.num_vars := by
    rw [toEvalMap_self hnd, hfull]
  have hnv0 : q.num_vars = 0 := by omega
  have hcover : ∀ i, i < p.num_vars → (lookupNat (toEvalMap vs) i).isSome = true := by
    intro i hi
    have hkeys : (toEvalMap vs).map Prod.fst = vs.map Prod.fst := by
      rw [toEvalMap_self hnd]
    rw [lookupNat_isSome_iff, hkeys]
    have hsub : (vs.map Prod.fst).toFinset ⊆ Finset.range p.num_vars := by
      intro a ha
      rw [List.mem_toFinset] at ha
      rcases List.mem_map.mp ha with ⟨kv, hkv, hfst⟩
      rw [Finset.mem_range]
      exact hfst ▸ hrange kv hkv
    have hcard : (Finset.range p.num_vars).card ≤ (vs.map Prod.fst).toFinset.card := by
      rw [Finset.card_range, List.toFinset_card_of_nodup hnd, List.length_map, hfull]
    have heq := Finset.eq_of_subset_of_card_le hsub hcard
    have : i ∈ (vs.map Prod.fst).toFinset := by
      rw [heq, Finset.mem_range]
      exact hi
    rw [List.mem_toFinset] at this
    exact this
  have hsem0 := hsem [] (by simp [hnv0])
  have hslots : slots (toEvalMap vs) 0 p.num_vars [] = pointOf vs p.num_vars := by
    rw [slots_all_some p.num_vars 0 [] (fun i h1 h2 => hcover i (by omega)),
      ← List.range_eq_range']
    rfl
  rw [hslots] at hsem0
  refine ⟨q, hq, hnv0, ?_⟩
  rcases zero_var_form hWFq hnv0 with hqnil | ⟨v, hqv, hv0, hv1⟩
  · rw [hqnil, if_pos (hnil.mp hqnil)]
  · have hpne : ¬p.terms = [] := by
      intro hp
      rw [hnil.mpr hp] at hqv
      cases hqv
    rw [hqv, if_neg hpne]
    have hqval : polyEval q [] = v := by
      rw [polyEval, hqv]
      simp [polyEvalAux]
    have hveq : v = polyEval p (pointOf vs p.num_vars) % p.modulus := by
      have h1 : v % p.modulus = polyEval p (pointOf vs p.num_vars) % p.modulus := by
        rw [← hqval]
        exact hsem0
      rw [Int.emod_eq_of_lt hv0 (hmod ▸ hv1)] at h1
      exact h1
    rw [hveq]

/-- The idealized full-assignment evaluation at a concrete input:
`2x₁ + 3x₂` over `F₅` at the out-of-order full assignment
`x₂ = 4, x₁ = 3`. -/
theorem partial_eval_full_assignment_app :
    ∃ q, MultiVarPolynomial.partial_eval ⟨[([1, 0], 2), ([0, 1], 3)], 2, 5⟩
        [(1, 4), (0, 3)] = some q ∧ q.num_vars = 0 ∧
      q.terms = if ([([1, 0], 2), ([0, 1], 3)] : List (List Nat × Int)) = [] then []
        else [([], polyEval ⟨[([1, 0], 2), ([0, 1], 3)], 2, 5⟩
          (pointOf [(1, 4), (0, 3)] 2) % 5)] :=
  partial_eval_full_assignment ⟨[([1, 0], 2), ([0, 1], 3)], 2, 5⟩ [(1, 4), (0, 3)]
    (by refine ⟨by decide, ?_, ?_, by decide⟩ <;> decide) (by decide) (by decide)
    (by decide) (by decide)

/-- C7: retaining a zero-coefficient entry breaks structural equality:
adding the terms `3·x⁰` and `2·x⁰` over `F₅` cancels to a stored zero
entry, producing a polynomial that agrees with the empty polynomial at
every point of the field yet compares unequal under the derived
`PartialEq`. -/
theorem zero_coeff_breaks_eq :
    (MultiVarPolynomial.add_term ⟨[], 1, 5⟩ [0] 3).bind (fun q => q.add_term [0] 2) =
      some ⟨[([0], 0)], 1, 5⟩ ∧
    (⟨[([0], 0)], 1, 5⟩ : MultiVarPolynomial).num_vars =
      (⟨[], 1, 5⟩ : MultiVarPolynomial).num_vars ∧
    (⟨[([0], 0)], 1, 5⟩ : MultiVarPolynomial).modulus =
      (⟨[], 1, 5⟩ : MultiVarPolynomial).modulus ∧
    (∀ x : Int, polyEval ⟨[([0], 0)], 1, 5⟩ [x] % 5 = polyEval ⟨[], 1, 5⟩ [x] % 5) ∧
    polyEqB ⟨[([0], 0)], 1, 5⟩ ⟨[], 1, 5⟩ = false := by
  refine ⟨by decide, rfl, rfl, ?_, by decide⟩
  intro x
  simp [polyEval, polyEvalAux]

/-- C9: every polynomial reachable through construction, `add_term` with
matching arity, `add`, `partial_eval` with unique in-range indices and
`bool_sum` satisfies the representation invariant: positive modulus,
every stored exponent tuple of length `num_vars`, every coefficient a
canonical residue, keys pairwise distinct. -/
theorem reachable_wf : ∀ p : MultiVarPolynomial, Reachable p → WF p := by
  intro p h
  induction h with
  | new nv m p hp =>
    rw [MultiVarPolynomial.new] at hp
    by_cases hm : m ≤ 0 ∨ is_prime m = false
    · rw [if_pos hm] at hp
      cases hp
    · rw [if_neg hm] at hp
      cases hp
      push_neg at hm
      refine ⟨?_, by simp, by simp, by simp⟩
      show (0 : Int) < m
      have h2 := is_prime_one_lt (Bool.of_not_eq_false hm.2)
      omega
  | term p k c q hp hat ih =>
    obtain ⟨q', hq', _, _, hWF', _⟩ := add_term_bundle p k c ih (add_term_arity hat)
    have heq : q' = q := by
      rw [hat] at hq'
      exact (Option.some.inj hq').symm
    exact heq ▸ hWF'
  | padd p₁ p₂ q hp₁ hp₂ hq ih₁ ih₂ =>
    have hcomp : p₁.num_vars = p₂.num_vars ∧ p₁.modulus = p₂.modulus := by
      by_contra hc
      rw [MultiVarPolynomial.add] at hq
      by_cases h1 : p₁.num_vars ≠ p₂.num_vars
      · rw [if_pos h1] at hq
        cases hq
      · rw [if_neg h1] at hq
        by_cases h2 : p₁.modulus ≠ p₂.modulus
        · rw [if_pos h2] at hq
          cases hq
        · push_neg at h1 h2
          exact hc ⟨h1, h2⟩
    obtain ⟨s, hs, _, _, hWFs, _, _, _⟩ := add_bundle p₁ p₂ ih₁ ih₂ hcomp.1 hcomp.2
    have heq : s = q := by
      rw [hq] at hs
      exact (Option.some.inj hs).symm
    exact heq ▸ hWFs
  | peval p vs q hp hnd hrange hq ih =>
    obtain ⟨q', hq', _, _, hWF', _, _, _⟩ := partial_eval_bundle p vs ih hrange
    have heq : q' = q := by
      rw [hq] at hq'
      exact (Option.some.inj hq').symm
    exact heq ▸ hWF'
  | bsum p q hp hq ih =>
    have hn : 1 ≤ p.num_vars := by
      by_contra hc
      rw [MultiVarPolynomial.bool_sum, if_pos (by omega)] at hq
      cases hq
    obtain ⟨a, b, q', _, _, _, hbs, _, _, hWF', _⟩ := bool_sum_bundle p ih hn
    have heq : q' = q := by
      rw [hq] at hbs
      exact (Option.some.inj hbs).symm
    exact heq ▸ hWF'

/-- Witness for C9: the invariant holds of a concrete value reached by
construction followed by `add_term` and `bool_sum`. -/
theorem reachable_wf_app : WF ⟨[([], 3)], 0, 5⟩ :=
  reachable_wf ⟨[([], 3)], 0, 5⟩
    (Reachable.bsum ⟨[([1], 3)], 1, 5⟩ ⟨[([], 3)], 0, 5⟩
      (Reachable.term ⟨[], 1, 5⟩ [1] 3 ⟨[([1], 3)], 1, 5⟩
        (Reachable.new 1 5 ⟨[], 1, 5⟩ (by decide)) (by decide))
      (by decide))

/-- C10: `bool_sum` is partial exactly at zero variables: on a
zero-variable polynomial the source's `num_vars - 1` underflows and the
call panics (`none`); with at least one variable (and the representation
invariant) it always returns a value. -/
theorem bool_sum_needs_a_variable :
    (∀ p : MultiVarPolynomial, p.num_vars = 0 → p.bool_sum = none) ∧
    ∀ p : MultiVarPolynomial, WF p → 1 ≤ p.num_vars → ∃ q, p.bool_sum = some q := by
  constructor
  · intro p h0
    rw [MultiVarPolynomial.bool_sum, if_pos h0]
  · intro p hWF h1
    obtain ⟨a, b, q, _, _, _, hbs, _⟩ := bool_sum_bundle p hWF h1
    exact ⟨q, hbs⟩

/-! ## C8: the protocol never panics on valid input -/

theorem chalAsn_congr {f g : Nat → Int} (k : Nat) (h : ∀ i, i < k → f i = g i) :
    chalAsn f k = chalAsn g k := by
  simp only [chalAsn]
  exact List.map_congr_left fun i hi => by rw [h i (List.mem_range.mp hi)]

theorem protoRound_eq_tail (poly : MultiVarPolynomial)
    (pov : Nat → Option MultiVarPolynomial) (vov : Nat → Option Int) (rand : Nat → Int)
    (num_var : Nat) (st : RunSt) :
    protoRound poly pov vov rand num_var st =
      protoRoundTail poly pov num_var
        (if 1 < num_var then
          match vov (num_var - 1) with
          | some r => (⟨st.g_prev, st.values ++ [(num_var - 2, r)], st.k⟩, r)
          | none => (⟨st.g_prev, st.values ++ [(num_var - 2, rand st.k)], st.k + 1⟩, rand st.k)
         else (st, 0)).1
        (if 1 < num_var then
          match vov (num_var - 1) with
          | some r => (⟨st.g_prev, st.values ++ [(num_var - 2, r)], st.k⟩, r)
          | none => (⟨st.g_prev, st.values ++ [(num_var - 2, rand st.k)], st.k + 1⟩, rand st.k)
         else (st, 0)).2 := rfl

/-- After the push, a round either rejects at its own round number or
advances with a well-formed univariate message: no branch panics. -/
theorem protoRoundTail_no_panic (poly : MultiVarPolynomial) (hWF : WF poly)
    (pov : Nat → Option MultiVarPolynomial)
    (hpov : ∀ i g, pov i = some g → g.num_vars = 1 ∧ WF g)
    (j : Nat) (h1 : 1 ≤ j) (hj : j ≤ poly.num_vars)
    (g_prev : MultiVarPolynomial) (hWFp : WF g_prev)
    (hpnv : 1 < j → g_prev.num_vars = 1) (f : Nat → Int) (k : Nat) (r : Int) :
    (∃ reason, protoRoundTail poly pov j ⟨g_prev, chalAsn f (j - 1), k⟩ r =
        Except.error (POutcome.reject reason j)) ∨
    ∃ g, protoRoundTail poly pov j ⟨g_prev, chalAsn f (j - 1), k⟩ r =
        Except.ok ⟨g, chalAsn f (j - 1), k⟩ ∧ WF g ∧ g.num_vars = 1 := by
  obtain ⟨g, hg, hWFg, hgnv⟩ : ∃ g,
      (match pov j with
       | some og => some og
       | none => compute_g_j poly 1 (chalAsn f (j - 1))) = some g ∧ WF g ∧ g.num_vars = 1 := by
    cases hpg : pov j with
    | some og => exact ⟨og, rfl, (hpov j og hpg).2, (hpov j og hpg).1⟩
    | none =>
      obtain ⟨g, hg, hgnv, _, hWFg, _⟩ := compute_g_j_bundle poly hWF f (j - 1) 1 (by omega)
      exact ⟨g, hg, hWFg, hgnv⟩
  have hdg : g.degree_in_var 0 =
      some (maxOr0 (g.terms.map fun kv => kv.1.getD 0 0)) := by
    rw [MultiVarPolynomial.degree_in_var, if_neg (by omega)]
  have hdp : poly.degree_in_var (j - 1) =
      some (maxOr0 (poly.terms.map fun kv => kv.1.getD (j - 1) 0)) := by
    rw [MultiVarPolynomial.degree_in_var, if_neg (by omega)]
  obtain ⟨a0, b0, rhs, _, _, _, hbs, _, _, _, _, _, _⟩ := bool_sum_bundle g hWFg (by omega)
  obtain ⟨lhs, hlhs⟩ : ∃ lhs,
      g_prev.partial_eval (if 1 < j then [(0, r)] else []) = some lhs := by
    by_cases hj1 : 1 < j
    · rw [if_pos hj1]
      obtain ⟨z, hz, _⟩ := pe_univar_bundle g_prev hWFp (hpnv hj1) r
      exact ⟨z, hz⟩
    · rw [if_neg hj1]
      obtain ⟨z, hz, _⟩ := pe_nil_bundle g_prev hWFp
      exact ⟨z, hz⟩
  by_cases hdeg : maxOr0 (poly.terms.map fun kv => kv.1.getD (j - 1) 0) <
      maxOr0 (g.terms.map fun kv => kv.1.getD 0 0)
  · refine Or.inl ⟨RejectReason.DegreeExceeded, ?_⟩
    rw [protoRoundTail]
    simp only [hg]
    rw [if_neg (show ¬g.num_vars ≠ 1 by omega)]
    simp only [hdg, hdp]
    rw [if_pos hdeg]
  · by_cases hcheck : polyEqB lhs rhs = true
    · refine Or.inr ⟨g, ?_, hWFg, hgnv⟩
      rw [protoRoundTail]
      simp only [hg]
      rw [if_neg (show ¬g.num_vars ≠ 1 by omega)]
      simp only [hdg, hdp]
      rw [if_neg hdeg]
      simp only [hlhs, hbs]
      rw [if_pos hcheck]
    · refine Or.inl ⟨RejectReason.ConsistencyFailure, ?_⟩
      rw [protoRoundTail]
      simp only [hg]
      rw [if_neg (show ¬g.num_vars ≠ 1 by omega)]
      simp only [hdg, hdp]
      rw [if_neg hdeg]
      simp only [hlhs, hbs]
      rw [if_neg hcheck]

/-- A full round from any state whose `values` hold the first `j - 2`
challenge assignments: either a typed rejection at round `j` or a
successful advance to `j - 1` recorded assignments. -/
theorem protoRound_no_panic (poly : MultiVarPolynomial) (hWF : WF poly)
    (pov : Nat → Option MultiVarPolynomial) (vov : Nat → Option Int) (rand : Nat → Int)
    (hpov : ∀ i g, pov i = some g → g.num_vars = 1 ∧ WF g)
    (j : Nat) (h1 : 1 ≤ j) (hj : j ≤ poly.num_vars)
    (g_prev : MultiVarPolynomial) (hWFp : WF g_prev)
    (hpnv : 1 < j → g_prev.num_vars = 1) (f : Nat → Int) (k : Nat) :
    (∃ reason, protoRound poly pov vov rand j ⟨g_prev, chalAsn f (j - 2), k⟩ =
        Except.error (POutcome.reject reason j)) ∨
    ∃ g f' k', protoRound poly pov vov rand j ⟨g_prev, chalAsn f (j - 2), k⟩ =
        Except.ok ⟨g, chalAsn f' (j - 1), k'⟩ ∧ WF g ∧ g.num_vars = 1 := by
  rw [protoRound_eq_tail]
  by_cases hj1 : 1 < j
  · cases hv : vov (j - 1) with
    | some r =>
      rw [if_pos hj1]
      simp only [hv]
      have hcongr : chalAsn (fun i => if i = j - 2 then r else f i) (j - 2) =
          chalAsn f (j - 2) :=
        chalAsn_congr (j - 2) (fun i hi => by rw [if_neg (by omega)])
      have hvals : chalAsn f (j - 2) ++ [(j - 2, r)] =
          chalAsn (fun i => if i = j - 2 then r else f i) (j - 1) := by
        rw [show j - 1 = (j - 2) + 1 from by omega, chalAsn_snoc, hcongr]
        simp
      rw [hvals]
      rcases protoRoundTail_no_panic poly hWF pov hpov j h1 hj g_prev hWFp hpnv
        (fun i => if i = j - 2 then r else f i) k r with ⟨reason, h⟩ | ⟨g, hok, hWFg, hgnv⟩
      · exact Or.inl ⟨reason, h⟩
      · exact Or.inr ⟨g, fun i => if i = j - 2 then r else f i, k, hok, hWFg, hgnv⟩
    | none =>
      rw [if_pos hj1]
      simp only [hv]
      have hcongr : chalAsn (fun i => if i = j - 2 then rand k else f i) (j - 2) =
          chalAsn f (j - 2) :=
        chalAsn_congr (j - 2) (fun i hi => by rw [if_neg (by omega)])
      have hvals : chalAsn f (j - 2) ++ [(j - 2, rand k)] =
          chalAsn (fun i => if i = j - 2 then rand k else f i) (j - 1) := by
        rw [show j - 1 = (j - 2) + 1 from by omega, chalAsn_snoc, hcongr]
        simp
      rw [hvals]
      rcases protoRoundTail_no_panic poly hWF pov hpov j h1 hj g_prev hWFp hpnv
        (fun i => if i = j - 2 then rand k else f i) (k + 1) (rand k) with
        ⟨reason, h⟩ | ⟨g, hok, hWFg, hgnv⟩
      · exact Or.inl ⟨reason, h⟩
      · exact Or.inr ⟨g, fun i => if i = j - 2 then rand k else f i, k + 1, hok, hWFg, hgnv⟩
  · rw [if_neg hj1]
    rw [show j - 2 = j - 1 from by omega]
    rcases protoRoundTail_no_panic poly hWF pov hpov j h1 hj g_prev hWFp hpnv f k 0 with
      ⟨reason, h⟩ | ⟨g, hok, hWFg, hgnv⟩
    · exact Or.inl ⟨reason, h⟩
    · exact Or.inr ⟨g, f, k, hok, hWFg, hgnv⟩

/-- The round loop never panics: it either rejects at some round or
finishes with a well-formed univariate last message and all
`num_vars - 1` challenge assignments recorded. -/
theorem protoLoop_no_panic (poly : MultiVarPolynomial) (hWF : WF poly)
    (pov : Nat → Option MultiVarPolynomial) (vov : Nat → Option Int) (rand : Nat → Int)
    (hpov : ∀ i g, pov i = some g → g.num_vars = 1 ∧ WF g) (hn : 1 ≤ poly.num_vars) :
    ∀ (left j : Nat) (g_prev : MultiVarPolynomial) (f : Nat → Int) (k : Nat),
      1 ≤ j → j + left = poly.num_vars + 1 → WF g_prev → (1 < j → g_prev.num_vars = 1) →
      (∃ reason round,
        protoLoop poly pov vov rand j left ⟨g_prev, chalAsn f (j - 2), k⟩ =
          Except.error (POutcome.reject reason round)) ∨
      ∃ g f' k', protoLoop poly pov vov rand j left ⟨g_prev, chalAsn f (j - 2), k⟩ =
          Except.ok ⟨g, chalAsn f' (poly.num_vars - 1), k'⟩ ∧ WF g ∧ g.num_vars = 1 := by
  intro left
  induction left with
  | zero =>
    intro j g_prev f k h1 hsum hWFp hpnv
    refine Or.inr ⟨g_prev, f, k, ?_, hWFp, hpnv (by omega)⟩
    simp only [protoLoop]
    rw [show j - 2 = poly.num_vars - 1 from by omega]
  | succ left ih =>
    intro j g_prev f k h1 hsum hWFp hpnv
    rcases protoRound_no_panic poly hWF pov vov rand hpov j h1 (by omega) g_prev hWFp
        hpnv f k with ⟨reason, hround⟩ | ⟨g, f', k', hround, hWFg, hgnv⟩
    · refine Or.inl ⟨reason, j, ?_⟩
      simp only [protoLoop]
      rw [hround]
    · have hnext := ih (j + 1) g f' k' (by omega) (by omega) hWFg (fun _ => hgnv)
      rw [show j + 1 - 2 = j - 1 from by omega] at hnext
      rcases hnext with ⟨reason, round, herr⟩ | ⟨gf, f₂, k₂, hok, hWFf, hfnv⟩
      · refine Or.inl ⟨reason, round, ?_⟩
        simp only [protoLoop]
        rw [hround]
        exact herr
      · refine Or.inr ⟨gf, f₂, k₂, ?_, hWFf, hfnv⟩
        simp only [protoLoop]
        rw [hround]
        exact hok

/-- C8 — No panic on valid input: for every well-formed polynomial with
at least one variable, every prover-override table of well-formed
univariate polynomials over the same modulus, and every verifier
override table with values in `[0, modulus)`, the protocol run either
accepts or returns a typed rejection (one of the four reasons, carrying
the failing round) — the panic outcome is unreachable. -/
theorem protocol_no_panic (p : MultiVarPolynomial) (hWF : WF p) (hn : 1 ≤ p.num_vars)
    (pov : Nat → Option MultiVarPolynomial) (vov : Nat → Option Int) (rand : Nat → Int)
    (hpov : ∀ j g, pov j = some g → g.num_vars = 1 ∧ g.modulus = p.modulus ∧ WF g)
    (hvov : ∀ j v, vov j = some v → 0 ≤ v ∧ v < p.modulus) :
    run_protocol p pov vov rand = Except.ok () ∨
    ∃ reason round, run_protocol p pov vov rand =
      Except.error (POutcome.reject reason round) := by
  have hpov' : ∀ j g, pov j = some g → g.num_vars = 1 ∧ WF g :=
    fun j g h => ⟨(hpov j g h).1, (hpov j g h).2.2⟩
  obtain ⟨c, hc, _, _, hWFc, _, _, _⟩ := compute_g_j_bundle p hWF rand 0 0 (by omega)
  rw [chalAsn_zero] at hc
  have hloop0 := protoLoop_no_panic p hWF pov vov rand hpov' hn p.num_vars 1 c rand 0
    (by omega) (by omega) hWFc (by omega)
  simp only [show (1 : Nat) - 2 = 0 from rfl, chalAsn_zero] at hloop0
  rcases hloop0 with ⟨reason, round, herr⟩ | ⟨g, f', k', hok, hWFg, hgnv⟩
  · refine Or.inr ⟨reason, round, ?_⟩
    rw [run_protocol, hc]
    simp only [herr]
  · obtain ⟨w, hw, hwnv, hwmod, hWFw, hwnil, hwsem⟩ :=
      pe_univar_bundle g hWFg hgnv (match vov p.num_vars with
        | some r => r
        | none => rand k')
    have hcongr : chalAsn (fun i => if i = p.num_vars - 1 then
          (match vov p.num_vars with
           | some r => r
           | none => rand k') else f' i) (p.num_vars - 1) =
        chalAsn f' (p.num_vars - 1) :=
      chalAsn_congr (p.num_vars - 1) (fun i hi => by rw [if_neg (by omega)])
    have hsnoc := chalAsn_snoc (fun i => if i = p.num_vars - 1 then
      (match vov p.num_vars with
       | some r => r
       | none => rand k') else f' i) (p.num_vars - 1)
    rw [show p.num_vars - 1 + 1 = p.num_vars from by omega] at hsnoc
    have hvals : chalAsn f' (p.num_vars - 1) ++
        [(p.num_vars - 1, (match vov p.num_vars with
          | some r => r
          | none => rand k'))] =
        chalAsn (fun i => if i = p.num_vars - 1 then
          (match vov p.num_vars with
           | some r => r
           | none => rand k') else f' i) p.num_vars := by
      rw [hsnoc, hcongr]
      simp
    obtain ⟨z, hz, hznv, hzmod, hWFz, hznil, hzsem⟩ :=
      pe_full_chal_bundle p hWF (fun i => if i = p.num_vars - 1 then
        (match vov p.num_vars with
         | some r => r
         | none => rand k') else f' i) hn
    rw [← hvals] at hz
    rw [run_protocol, hc]
    simp only [hok]
    rw [if_neg (by omega)]
    simp only [hz, hw]
    by_cases hcheck : polyEqB z w = true
    · rw [if_pos hcheck]
      exact Or.inl rfl
    · rw [if_neg hcheck]
      exact Or.inr ⟨RejectReason.FinalCheckFailure, p.num_vars, rfl⟩

/-- Witness for C8 at a concrete input: the polynomial `2x` over `F₅`
with empty override tables. -/
theorem protocol_no_panic_app :
    run_protocol ⟨[([1], 2)], 1, 5⟩ (fun _ => none) (fun _ => none) (fun _ => 0) =
        Except.ok () ∨
    ∃ reason round, run_protocol ⟨[([1], 2)], 1, 5⟩ (fun _ => none) (fun _ => none)
        (fun _ => 0) = Except.error (POutcome.reject reason round) :=
  protocol_no_panic ⟨[([1], 2)], 1, 5⟩
    (by refine ⟨by decide, ?_, ?_, by decide⟩ <;> decide) (by decide)
    (fun _ => none) (fun _ => none) (fun _ => 0)
    (fun j g h => by cases h) (fun j v h => by cases h)

/-! ## Width divergences of the program itself (C1, C6) -/

/-- C6 — the full-assignment claim fails on the program: evaluating
`x²` over the prime field `F₄₆₃₄₉` at the full assignment `x = 46348`
(all of the claim's hypotheses hold), the bit-exact `i32` model of
`partial_eval` stores the coefficient 9139 — the wrapped product of
src/src/lib.rs lines 103-104, a debug build panics here instead — while
the exact evaluation mod 46349, which the idealized wide-arithmetic
`partial_eval` computes, is 1. -/
theorem partial_eval_i32_wrong_value :
    is_prime 46349 = true ∧
    MultiVarPolynomial.partial_eval32 ⟨[([2], 1)], 1, 46349⟩ [(0, 46348)] =
      some ⟨[([], 9139)], 0, 46349⟩ ∧
    MultiVarPolynomial.partial_eval ⟨[([2], 1)], 1, 46349⟩ [(0, 46348)] =
      some ⟨[([], 1)], 0, 46349⟩ ∧
    polyEval ⟨[([2], 1)], 1, 46349⟩ (pointOf [(0, 46348)] 1) % 46349 = 1 ∧
    (9139 : Int) ≠ 1 :=
  ⟨by decide, by decide, by decide, by decide, by decide⟩

set_option maxRecDepth 4096 in
/-- C1 — completeness fails on the program: the honest run (no
overrides) on `46343·x₁²·x₂ + 46343·x₂` over the prime field `F₄₆₃₄₉` —
a polynomial built by ordinary valid input — with every sampled
challenge equal to 46339 (a value in `[0, modulus)`) is rejected by the
bit-exact `i32` model at the final evaluation check of round 2, because
`partial_eval`'s wrapped products store 15198 for `g(r₁, r₂)` where the
true value, held by `g₂(r₂)`, is 6060; the idealized wide-arithmetic run
on the same input accepts.  (In a debug build the same overflow panics
instead of wrapping.) -/
theorem honest_run_i32_rejects :
    is_prime 46349 = true ∧
    ((0 : Int) ≤ 46339 ∧ (46339 : Int) < 46349) ∧
    buildPoly 2 46349 [([2, 1], 46343), ([0, 1], 46343)] =
      some ⟨[([2, 1], 46343), ([0, 1], 46343)], 2, 46349⟩ ∧
    run_protocol32 ⟨[([2, 1], 46343), ([0, 1], 46343)], 2, 46349⟩
      (fun _ => none) (fun _ => none) (fun _ => 46339) =
      Except.error (POutcome.reject RejectReason.FinalCheckFailure 2) ∧
    run_protocol ⟨[([2, 1], 46343), ([0, 1], 46343)], 2, 46349⟩
      (fun _ => none) (fun _ => none) (fun _ => 46339) = Except.ok () := by
  refine ⟨by decide, ⟨by decide, by decide⟩, by decide, ?_, ?_⟩
  · rfl
  · exact run_protocol_honest_accepts
      ⟨[([2, 1], 46343), ([0, 1], 46343)], 2, 46349⟩
      (by refine ⟨by decide, ?_, ?_, by decide⟩ <;> decide) (by decide) (fun _ => 46339)
